import Mathlib

/-!
Verification of the lint/fix scripts in `scripts/`:
`fix-ansible-yaml.py`, `fix-jinja2-spacing.py`, `check-markdown.py`,
`fix-markdown.py`, `fix-markdown-v2.py`.

Text is modelled as `List Char`.  A file's content is a `List Char`; the
Python scripts split it on the newline character into lines (which is
faithfully mirrored by `splitNl` / `joinNl` below, matching Python's
`str.split`/`str.join` semantics, including `"".split` giving `[""]`).
A line, once split, never contains a newline character.
-/

namespace Scripts

/-- A line of text (no newline characters once produced by `splitNl`). -/
abbrev Line := List Char

/-- Python's `\s` / `str.strip()` whitespace on ASCII text:
space, tab, newline, carriage return, vertical tab, form feed. -/
def isPySpace (c : Char) : Bool :=
  c = ' ' || c = '\t' || c = '\n' || c = '\r' || c = '\x0B' || c = '\x0C'

/-- Python's `\w` word character (ASCII range): letter, digit or underscore. -/
def isWordChar (c : Char) : Bool :=
  c.isAlphanum || c = '_'

/-- Python `str.rstrip()`: remove trailing whitespace. -/
def rstrip (l : Line) : Line :=
  (l.reverse.dropWhile isPySpace).reverse

/-- Python `str.lstrip()`: remove leading whitespace. -/
def lstrip (l : Line) : Line :=
  l.dropWhile isPySpace

/-- Python `str.strip()`: remove leading and trailing whitespace. -/
def strip (l : Line) : Line :=
  rstrip (lstrip l)

/-- Python `content.split('\n')`: `"".split('\n') = [""]`, and a trailing
newline yields a final empty piece. -/
def splitNl : List Char → List Line
  | [] => [[]]
  | c :: cs =>
    if c = '\n' then [] :: splitNl cs
    else
      match splitNl cs with
      | [] => [[c]]
      | l :: ls => (c :: l) :: ls

/-- Python `'\n'.join(lines)`. -/
def joinNl : List Line → List Char
  | [] => []
  | [l] => l
  | l :: l' :: ls => l ++ '\n' :: joinNl (l' :: ls)

/-! ## fix-ansible-yaml.py -/

/-- The `FQCN_MAPPINGS` table (insertion order preserved, as in Python). -/
def FQCN_MAPPINGS : List (List Char × List Char) :=
  [("apt".toList, "ansible.builtin.apt".toList),
   ("copy".toList, "ansible.builtin.copy".toList),
   ("fetch".toList, "ansible.builtin.fetch".toList),
   ("file".toList, "ansible.builtin.file".toList),
   ("get_url".toList, "ansible.builtin.get_url".toList),
   ("lineinfile".toList, "ansible.builtin.lineinfile".toList),
   ("replace".toList, "ansible.builtin.replace".toList),
   ("shell".toList, "ansible.builtin.shell".toList),
   ("systemd".toList, "ansible.builtin.systemd".toList),
   ("template".toList, "ansible.builtin.template".toList),
   ("wait_for".toList, "ansible.builtin.wait_for".toList),
   ("modprobe".toList, "community.general.modprobe".toList),
   ("sysctl".toList, "ansible.posix.sysctl".toList),
   ("timezone".toList, "community.general.timezone".toList),
   ("ufw".toList, "community.general.ufw".toList)]

/-- The `TRUTHY_MAPPINGS` table. -/
def TRUTHY_MAPPINGS : List (List Char × List Char) :=
  [("yes".toList, "true".toList),
   ("no".toList, "false".toList),
   ("Yes".toList, "true".toList),
   ("No".toList, "false".toList),
   ("YES".toList, "true".toList),
   ("NO".toList, "false".toList)]

/-- One attempt of `re.match(r'^(\s+(?:-\s+)?)(<short>:)', line)` followed by
the rewrite `lines[i] = f"{indent}{fqcn}:"` from `fix_fqcn`.
The optional group `(?:-\s+)?` matches a dash followed by whitespace; if the
dash is not followed by whitespace the group matches empty (and the module
name, which never starts with a dash, then fails to match).
Returns `none` when the pattern does not match.  Note that on a match the
whole line is replaced by `indent ++ fqcn ++ ':'` - any text after the colon
is dropped, exactly as in the source. -/
def fqcnApply (short fq : List Char) (line : Line) : Option Line :=
  let ws1 := line.takeWhile isPySpace
  let r1 := line.dropWhile isPySpace
  if ws1.isEmpty then none
  else
    let g1r2 : Line × Line :=
      match r1 with
      | '-' :: r1' =>
        let ws2 := r1'.takeWhile isPySpace
        if ws2.isEmpty then (ws1, r1)
        else (ws1 ++ '-' :: ws2, r1'.dropWhile isPySpace)
      | _ => (ws1, r1)
    if (short ++ [':']).isPrefixOf g1r2.2 then some (g1r2.1 ++ fq ++ [':'])
    else none

/-- The per-line effect of `fix_fqcn`'s inner loop: every mapping is tried
against the original `line` (the Python loop variable `line` is not updated
by the assignment to `lines[i]`), and the last matching mapping wins. -/
def fqcnLine (line : Line) : Line :=
  FQCN_MAPPINGS.foldl
    (fun acc p =>
      match fqcnApply p.1 p.2 line with
      | some l' => l'
      | none => acc)
    line

/-- `fix_fqcn`: split on newlines, rewrite each line, re-join.
The `modified` flag of the source is returned as the second component. -/
def fix_fqcn (content : List Char) : List Char × Bool :=
  let ls := (splitNl content).map fqcnLine
  (joinNl ls, ls ≠ splitNl content)

/-- One attempt of `re.match(r'^(\s+\w+:\s+)(<old>)(\s*(?:#.*)?$)', line)`
followed by the rewrite from `fix_truthy_values`.  Group 1 is
whitespace, a word, a colon and more whitespace; group 2 the truthy literal;
group 3 optional whitespace and an optional `#` comment running to the end
of the line. -/
def truthyApply (old new : List Char) (line : Line) : Option Line :=
  let ind := line.takeWhile isPySpace
  let r1 := line.dropWhile isPySpace
  if ind.isEmpty then none
  else
    let key := r1.takeWhile isWordChar
    let r2 := r1.dropWhile isWordChar
    if key.isEmpty then none
    else
      match r2 with
      | ':' :: r3 =>
        let sp := r3.takeWhile isPySpace
        let r4 := r3.dropWhile isPySpace
        if sp.isEmpty then none
        else if old.isPrefixOf r4 then
          let r5 := r4.drop old.length
          let r6 := r5.dropWhile isPySpace
          if r6.isEmpty || r6.headD ' ' = '#' then
            some (ind ++ (key ++ (':' :: (sp ++ (new ++ r5)))))
          else none
        else none
      | _ => none

/-- The per-line effect of `fix_truthy_values`'s inner loop: as with
`fqcnLine`, every mapping is matched against the original line. -/
def truthyLine (line : Line) : Line :=
  TRUTHY_MAPPINGS.foldl
    (fun acc p =>
      match truthyApply p.1 p.2 line with
      | some l' => l'
      | none => acc)
    line

/-- `fix_truthy_values`. -/
def fix_truthy_values (content : List Char) : List Char × Bool :=
  let ls := (splitNl content).map truthyLine
  (joinNl ls, ls ≠ splitNl content)

/-- `re.sub(r'\{\{\s+([^}]+?)\s+\}\}', ...)` match attempt just after a
double opening brace.  `t` is everything up to the first closing brace,
which must be immediately followed by a second one; the pattern requires
at least one whitespace character on each side of the non-empty inner
group.  Backtracking of the greedy `\s+` against the lazy `[^}]+?` yields
group 1 = `strip t` when `t` contains a non-whitespace character, and a
single space when `t` is all whitespace of length at least 3.
Returns `(group1, text after the match)`. -/
def braceMatch (s : List Char) : Option (List Char × List Char) :=
  match s.dropWhile (fun c => c ≠ '}') with
  | '}' :: '}' :: rest =>
    if isPySpace ((s.takeWhile (fun c => c ≠ '}')).headD '}')
        && isPySpace ((s.takeWhile (fun c => c ≠ '}')).getLastD '}')
        && 3 ≤ (s.takeWhile (fun c => c ≠ '}')).length then
      some (if (strip (s.takeWhile (fun c => c ≠ '}'))).isEmpty then [' ']
            else strip (s.takeWhile (fun c => c ≠ '}')), rest)
    else none
  | _ => none

theorem braceMatch_length {s g rest} (h : braceMatch s = some (g, rest)) :
    rest.length < s.length := by
  have hsub : (s.dropWhile (fun c => decide (c ≠ '}'))).length ≤ s.length :=
    (List.dropWhile_suffix _).length_le
  unfold braceMatch at h
  split at h
  next v heq =>
    split at h
    · rw [Option.some.injEq, Prod.mk.injEq] at h
      obtain ⟨-, h2⟩ := h
      subst h2
      rw [heq] at hsub
      simp only [List.length_cons] at hsub
      omega
    · exact absurd h (by simp)
  next => exact absurd h (by simp)

/-- `fix_brace_spacing`'s substitution, with fuel: scan left to right; at
each occurrence of a double opening brace attempt the match, otherwise
advance one character (the pattern can only start at a double brace).
Every step consumes at least one character (`braceMatch_length`), so with
`fuel` at least the length of the text the zero-fuel case is unreachable. -/
def braceSubAux : Nat → List Char → List Char
  | 0, s => s
  | _ + 1, [] => []
  | fuel + 1, c :: cs =>
    if c = '{' then
      match cs with
      | '{' :: cs2 =>
        match braceMatch cs2 with
        | some (g, rest) => '{' :: '{' :: (g ++ '}' :: '}' :: braceSubAux fuel rest)
        | none => '{' :: braceSubAux fuel cs
      | _ => '{' :: braceSubAux fuel cs
    else c :: braceSubAux fuel cs

/-- `re.sub(r'\{\{\s+([^}]+?)\s+\}\}', r'{{\1}}', content)`. -/
def braceSub (s : List Char) : List Char := braceSubAux s.length s

/-- `fix_brace_spacing`. -/
def fix_brace_spacing (content : List Char) : List Char × Bool :=
  (braceSub content, braceSub content ≠ content)

/-! ## fix-jinja2-spacing.py -/

/-- `re.sub(r'\{\{([^}]+)\}\}', add_spaces, content)` match attempt just
after a double opening brace: the greedy `[^}]+` runs to the first closing
brace, which must be followed by a second one, and must be non-empty.
`add_spaces` keeps the expression unchanged when the inner text both starts
and ends with a space character, and otherwise strips it and pads with
exactly one space on each side. -/
def jinjaMatch (s : List Char) : Option (List Char × List Char) :=
  match s.dropWhile (fun c => c ≠ '}') with
  | '}' :: '}' :: rest =>
    if (s.takeWhile (fun c => c ≠ '}')).isEmpty then none
    else if (s.takeWhile (fun c => c ≠ '}')).headD '}' = ' '
        && (s.takeWhile (fun c => c ≠ '}')).getLastD '}' = ' ' then
      some (s.takeWhile (fun c => c ≠ '}'), rest)
    else some (' ' :: strip (s.takeWhile (fun c => c ≠ '}')) ++ [' '], rest)
  | _ => none

theorem jinjaMatch_length {s g rest} (h : jinjaMatch s = some (g, rest)) :
    rest.length < s.length := by
  have hsub : (s.dropWhile (fun c => decide (c ≠ '}'))).length ≤ s.length :=
    (List.dropWhile_suffix _).length_le
  unfold jinjaMatch at h
  split at h
  next v heq =>
    rw [heq] at hsub
    simp only [List.length_cons] at hsub
    split at h
    · exact absurd h (by simp)
    · split at h <;>
      · rw [Option.some.injEq, Prod.mk.injEq] at h
        obtain ⟨-, h2⟩ := h
        subst h2
        omega
  next => exact absurd h (by simp)

/-- The scan of `fix_jinja2_spacing`'s substitution, with fuel; as with
`braceSubAux` the zero-fuel case is unreachable when the fuel is at least
the length of the text (`jinjaMatch_length`). -/
def jinja2SubAux : Nat → List Char → List Char
  | 0, s => s
  | _ + 1, [] => []
  | fuel + 1, c :: cs =>
    if c = '{' then
      match cs with
      | '{' :: cs2 =>
        match jinjaMatch cs2 with
        | some (g, rest) => '{' :: '{' :: (g ++ '}' :: '}' :: jinja2SubAux fuel rest)
        | none => '{' :: jinja2SubAux fuel cs
      | _ => '{' :: jinja2SubAux fuel cs
    else c :: jinja2SubAux fuel cs

/-- The whole-content substitution of `fix_jinja2_spacing`. -/
def jinja2Sub (s : List Char) : List Char := jinja2SubAux s.length s

/-- `fix_jinja2_spacing`. -/
def fix_jinja2_spacing (content : List Char) : List Char × Bool :=
  (jinja2Sub content, jinja2Sub content ≠ content)

/-! ## check-markdown.py -/

/-- The rule identifiers appearing in `check_file`'s messages. -/
inductive Rule
  | MD040
  | MD031Before
  | MD031After
  | MD022Before
  | MD022After
  | MD009
  | MD013
  | MD034
  | MD047Multi
  | MD047Missing
deriving DecidableEq, Repr

/-- An issue: 1-based line number (0 for the EOF checks) and rule. -/
abbrev Issue := Nat × Rule

/-- The three backticks that open or close a code fence. -/
def fence3 : List Char := "```".toList

/-- Length matched by `https?://` at this position (`s?` greedy). -/
def urlScheme (cs : List Char) : Option Nat :=
  if "https://".toList.isPrefixOf cs then some 8
  else if "http://".toList.isPrefixOf cs then some 7
  else none

/-- One attempt of `(?<![(<])(https?://[^\s\)>]+)(?![>)])` at a position
whose preceding character is `prev` (`none` at the start of the line).
The greedy character class runs to the first whitespace, parenthesis or
angle close; if the character right after it is `)` or `>` the lookahead
forces one character of backtracking (after which it succeeds, since the
new following character was part of the class).  Returns the total length
of the match. -/
def urlMatchLen (prev : Option Char) (cs : List Char) : Option Nat :=
  if prev = some '(' || prev = some '<' then none
  else
    match urlScheme cs with
    | none => none
    | some k =>
      let run := (cs.drop k).takeWhile fun c => !(isPySpace c) && c ≠ ')' && c ≠ '>'
      let k2 :=
        match (cs.drop k).drop run.length with
        | c :: _ => if c = ')' || c = '>' then run.length - 1 else run.length
        | [] => run.length
      if k2 = 0 then none else some (k + k2)

/-- `re.findall` of the bare-URL pattern: non-overlapping left-to-right
matches; returns the number of matches (one `MD034` issue each).  The fuel
is the length of the text, enough since every step consumes at least one
character. -/
def findUrlCount : Nat → Option Char → List Char → Nat
  | 0, _, _ => 0
  | _, _, [] => 0
  | fuel + 1, prev, c :: cs =>
    match urlMatchLen prev (c :: cs) with
    | some k =>
      1 + findUrlCount fuel (some (((c :: cs).take k).getLastD c)) ((c :: cs).drop k)
    | none => findUrlCount fuel (some c) cs

/-- Number of bare URLs `re.findall` reports on a line. -/
def findUrls (l : Line) : Nat := findUrlCount l.length none l

/-- The issues one iteration of `check_file`'s loop emits for the current
line.  `i` is the 1-based line number, `inC` the fence state before this
line and `prev` the previous line (empty for the first line).  The fence
state is toggled first, so the checks that read `in_code_block` observe the
toggled value `inC'`, exactly as in the source. -/
def lineIssues (i : Nat) (inC : Bool) (prev line : Line) (rest : List Line) :
    List Issue :=
  let isF := fence3.isPrefixOf line
  let inC' := if isF then !inC else inC
  let next := rest.headD []
  (if isF = true ∧ inC' = false ∧ line = fence3 then [(i, Rule.MD040)] else [])
    ++ (if isF = true ∧ inC' = false ∧ (strip prev).isEmpty = false ∧ 1 < i
            ∧ (['#'].isPrefixOf prev) = false
        then [(i, Rule.MD031Before)] else [])
    ++ (if isF = true ∧ inC' = true ∧ rest ≠ [] ∧ (strip next).isEmpty = false
        then [(i, Rule.MD031After)] else [])
    ++ (if (['#'].isPrefixOf line) = true ∧ line.contains ' ' = true ∧ 1 < i
            ∧ (strip prev).isEmpty = false
        then [(i, Rule.MD022Before)] else [])
    ++ (if (['#'].isPrefixOf line) = true ∧ line.contains ' ' = true ∧ rest ≠ []
            ∧ (strip next).isEmpty = false ∧ (['#'].isPrefixOf next) = false
        then [(i, Rule.MD022After)] else [])
    ++ (if rstrip line ≠ line ∧ line.length - (rstrip line).length ≠ 2
        then [(i, Rule.MD009)] else [])
    ++ (if 120 < line.length ∧ inC' = false ∧ ("http".toList.isPrefixOf line) = false
        then [(i, Rule.MD013)] else [])
    ++ (if inC' = false then List.replicate (findUrls line) (i, Rule.MD034) else [])

/-- The loop of `check_file`. -/
def checkLoop (i : Nat) (inC : Bool) (prev : Line) : List Line → List Issue
  | [] => []
  | line :: rest =>
    lineIssues i inC prev line rest
      ++ checkLoop (i + 1) (if fence3.isPrefixOf line then !inC else inC) line rest

/-- `check_file`.  `lines` are the lines of the file with their trailing
newline removed (`readlines` keeps it; every use in the loop strips it);
`trailNl` records whether the last raw line ended with a newline.  The
first EOF check `lines[-1].endswith('\n\n')` can only be true if the bare
last line itself ended in a newline, which never happens for lines
produced by `readlines`; it is kept in this faithful form. -/
def check_file (lines : List Line) (trailNl : Bool) : List Issue :=
  checkLoop 1 false [] lines
    ++ (if lines ≠ [] ∧ trailNl = true ∧ (lines.getLastD []).getLastD ' ' = '\n'
        then [(0, Rule.MD047Multi)]
        else if lines ≠ [] ∧ trailNl = false then [(0, Rule.MD047Missing)]
        else [])

/-! ## fix-markdown.py -/

/-- `line.strip().startswith('#') and ' ' in line` - note the space is
looked for in the unstripped line. -/
def isHeading (l : Line) : Bool :=
  ['#'].isPrefixOf (strip l) && l.contains ' '

/-- `line.strip().startswith('```')`. -/
def isFence (l : Line) : Bool :=
  fence3.isPrefixOf (strip l)

/-- `re.compile(r'^(\s*)[-*]|\d+\.\s')` via `re.match`: either optional
leading whitespace followed by a dash or star, or (anchored at the very
start, since the alternative has no `^(\s*)`) digits, a dot and one
whitespace character. -/
def isListLine (l : Line) : Bool :=
  (match lstrip l with
   | '-' :: _ => true
   | '*' :: _ => true
   | _ => false)
  || (match l.span (·.isDigit) with
      | (ds, '.' :: c :: _) => !ds.isEmpty && isPySpace c
      | _ => false)

/-- Condition for inserting a blank line before a heading in
`fix_blank_lines_around_headings`: the heading is not the first line, the
previous input line is non-blank and not `#`-initial (stripped), and the
last emitted line is non-empty.  `lastOut` is `none` exactly when nothing
has been emitted yet, i.e. `i = 0`. -/
def hBefore (prev : Line) (lastOut : Option Line) (line : Line) : Bool :=
  match lastOut with
  | some l =>
    isHeading line && !(strip prev).isEmpty && !(['#'].isPrefixOf (strip prev))
      && !l.isEmpty
  | none => false

/-- Condition for inserting a blank line after a heading: the next input
line is non-blank, not `#`-initial (stripped) and does not start with a
code fence (unstripped).  With `next = []` (last line) this is false,
matching the `i < len(lines)-1` guard. -/
def hAfter (line next : Line) : Bool :=
  isHeading line && !(strip next).isEmpty && !(['#'].isPrefixOf (strip next))
    && !(fence3.isPrefixOf next)

/-- The loop of `fix_blank_lines_around_headings`. -/
def fixHeadLoop (prev : Line) (lastOut : Option Line) : List Line → List Line
  | [] => []
  | line :: rest =>
    let post := hAfter line (rest.headD [])
    (if hBefore prev lastOut line then [([] : Line)] else [])
      ++ line :: (if post then [([] : Line)] else [])
      ++ fixHeadLoop line (some (if post then [] else line)) rest

/-- `fix_blank_lines_around_headings` on a line list. -/
def fixHeadingsLines (ls : List Line) : List Line :=
  fixHeadLoop [] none ls

/-- `fix_blank_lines_around_headings`. -/
def fix_blank_lines_around_headings (c : List Char) : List Char :=
  joinNl (fixHeadingsLines (splitNl c))

/-- Condition for inserting a blank line before an opening fence in
`fix_blank_lines_around_fences`. -/
def fBefore (prev : Line) (lastOut : Option Line) : Bool :=
  match lastOut with
  | some l => !(strip prev).isEmpty && !l.isEmpty
  | none => false

/-- The loop of `fix_blank_lines_around_fences`; `inF` is the fence state. -/
def fixFenceLoop (inF : Bool) (prev : Line) (lastOut : Option Line) :
    List Line → List Line
  | [] => []
  | line :: rest =>
    if isFence line then
      if inF then
        let post := !rest.isEmpty && !(strip (rest.headD [])).isEmpty
        line :: (if post then [([] : Line)] else [])
          ++ fixFenceLoop false line (some (if post then [] else line)) rest
      else
        (if fBefore prev lastOut then [([] : Line)] else [])
          ++ line :: fixFenceLoop true line (some line) rest
    else line :: fixFenceLoop inF line (some line) rest

/-- `fix_blank_lines_around_fences` on a line list. -/
def fixFencesLines (ls : List Line) : List Line :=
  fixFenceLoop false [] none ls

/-- `fix_blank_lines_around_fences`. -/
def fix_blank_lines_around_fences (c : List Char) : List Char :=
  joinNl (fixFencesLines (splitNl c))

/-- Condition for inserting a blank line before the first line of a list
block in `fix_blank_lines_around_lists`. -/
def lBefore (prev : Line) (lastOut : Option Line) : Bool :=
  match lastOut with
  | some l => !(strip prev).isEmpty && !(isListLine prev) && !l.isEmpty
  | none => false

/-- Condition for inserting a blank line when leaving a list block. -/
def lExitIns (line : Line) (lastOut : Option Line) : Bool :=
  match lastOut with
  | some l => !(strip line).isEmpty && !l.isEmpty
  | none => false

/-- The loop of `fix_blank_lines_around_lists`; `inL` is the list state. -/
def fixListLoop (inL : Bool) (prev : Line) (lastOut : Option Line) :
    List Line → List Line
  | [] => []
  | line :: rest =>
    if isListLine line then
      if inL then line :: fixListLoop true line (some line) rest
      else
        (if lBefore prev lastOut then [([] : Line)] else [])
          ++ line :: fixListLoop true line (some line) rest
    else
      if inL then
        (if lExitIns line lastOut then [([] : Line)] else [])
          ++ line :: fixListLoop false line (some line) rest
      else line :: fixListLoop false line (some line) rest

/-- `fix_blank_lines_around_lists` on a line list. -/
def fixListsLines (ls : List Line) : List Line :=
  fixListLoop false [] none ls

/-- `fix_blank_lines_around_lists`. -/
def fix_blank_lines_around_lists (c : List Char) : List Char :=
  joinNl (fixListsLines (splitNl c))

/-- `fix_trailing_spaces` of fix-markdown.py. -/
def fix_trailing_spaces (c : List Char) : List Char :=
  joinNl ((splitNl c).map rstrip)

/-- `content.rstrip('\n')`. -/
def dropTrailingNl (c : List Char) : List Char :=
  (c.reverse.dropWhile (· = '\n')).reverse

/-- `fix_eof_newline`: `content.rstrip('\n') + '\n'`. -/
def fix_eof_newline (c : List Char) : List Char :=
  dropTrailingNl c ++ ['\n']

/-- Trailing empty lines of a line list correspond exactly to the trailing
newlines of the joined content. -/
def dropTrailingEmpty (ls : List Line) : List Line :=
  (ls.reverse.dropWhile List.isEmpty).reverse

/-- The effect of `fix_eof_newline` on the line view of the content:
`splitNl (fix_eof_newline (joinNl ls)) = fixEofLines ls` for a non-empty
newline-free line list. -/
def fixEofLines (ls : List Line) : List Line :=
  if (dropTrailingEmpty ls).isEmpty then [[], []]
  else dropTrailingEmpty ls ++ [[]]

/-- The fix pipeline of `process_markdown_file` (the two commented-out
steps of the source are omitted just as the source omits them). -/
def process_markdown_content (c : List Char) : List Char :=
  fix_eof_newline
    (fix_blank_lines_around_lists
      (fix_blank_lines_around_fences
        (fix_blank_lines_around_headings
          (fix_trailing_spaces c))))

/-- `ys` is `xs` with some empty lines inserted (in particular `xs` is a
subsequence of `ys` and every line of `ys` not coming from `xs` is empty). -/
inductive Ins : List Line → List Line → Prop
  | nil : Ins [] []
  | cons (x : Line) {xs ys : List Line} : Ins xs ys → Ins (x :: xs) (x :: ys)
  | blank {xs ys : List Line} : Ins xs ys → Ins xs ([] :: ys)

/-! ## General helper lemmas -/

theorem takeWhile_append_of {p : Char → Bool} :
    ∀ {xs ys : List Char}, (∀ c ∈ xs, p c = true) →
      (∀ c, ys.head? = some c → p c = false) → (xs ++ ys).takeWhile p = xs
  | [], ys, _, hys => by
    cases ys with
    | nil => rfl
    | cons y ys' => simp [List.takeWhile_cons, hys y rfl]
  | x :: xs, ys, hxs, hys => by
    simp only [List.cons_append, List.takeWhile_cons, hxs x (List.mem_cons_self x xs),
      if_true]
    rw [takeWhile_append_of (fun c hc => hxs c (List.mem_cons_of_mem x hc)) hys]

theorem dropWhile_append_of {p : Char → Bool} :
    ∀ {xs ys : List Char}, (∀ c ∈ xs, p c = true) →
      (∀ c, ys.head? = some c → p c = false) → (xs ++ ys).dropWhile p = ys
  | [], ys, _, hys => by
    cases ys with
    | nil => rfl
    | cons y ys' => simp [List.dropWhile_cons, hys y rfl]
  | x :: xs, ys, hxs, hys => by
    simp only [List.cons_append, List.dropWhile_cons, hxs x (List.mem_cons_self x xs),
      if_true]
    exact dropWhile_append_of (fun c hc => hxs c (List.mem_cons_of_mem x hc)) hys

theorem pySpace_not_word {c : Char} (h : isPySpace c = true) : isWordChar c = false := by
  simp only [isPySpace, Bool.or_eq_true, decide_eq_true_eq] at h
  rcases h with ((((h | h) | h) | h) | h) | h <;> subst h <;> decide

theorem word_not_pySpace {c : Char} (h : isWordChar c = true) : isPySpace c = false := by
  by_contra hc
  rw [Bool.not_eq_false] at hc
  rw [pySpace_not_word hc] at h
  exact Bool.false_ne_true h

/-! ## fix_fqcn / fix_truthy_values lemmas -/

theorem fqcnApply_of_no_indent {short fq : List Char} {line : Line}
    (h : ∀ c, line.head? = some c → isPySpace c = false) :
    fqcnApply short fq line = none := by
  cases line with
  | nil => rfl
  | cons c cs => simp [fqcnApply, List.takeWhile_cons, h c rfl]

theorem truthyApply_of_no_indent {old new : List Char} {line : Line}
    (h : ∀ c, line.head? = some c → isPySpace c = false) :
    truthyApply old new line = none := by
  cases line with
  | nil => rfl
  | cons c cs => simp [truthyApply, List.takeWhile_cons, h c rfl]

theorem fqcnLine_of_all_none {line : Line}
    (h : ∀ p ∈ FQCN_MAPPINGS, fqcnApply p.1 p.2 line = none) :
    fqcnLine line = line := by
  unfold fqcnLine
  suffices h' : ∀ (ms : List (List Char × List Char)) (acc : Line),
      (∀ p ∈ ms, fqcnApply p.1 p.2 line = none) →
      ms.foldl (fun acc p =>
        match fqcnApply p.1 p.2 line with
        | some l' => l'
        | none => acc) acc = acc by
    exact h' _ _ h
  intro ms
  induction ms with
  | nil => intro acc _; rfl
  | cons p ms ih =>
    intro acc hall
    rw [List.foldl_cons]
    simp only [hall p (List.mem_cons_self p ms)]
    exact ih _ fun q hq => hall q (List.mem_cons_of_mem _ hq)

theorem truthyLine_of_all_none {line : Line}
    (h : ∀ p ∈ TRUTHY_MAPPINGS, truthyApply p.1 p.2 line = none) :
    truthyLine line = line := by
  unfold truthyLine
  suffices h' : ∀ (ms : List (List Char × List Char)) (acc : Line),
      (∀ p ∈ ms, truthyApply p.1 p.2 line = none) →
      ms.foldl (fun acc p =>
        match truthyApply p.1 p.2 line with
        | some l' => l'
        | none => acc) acc = acc by
    exact h' _ _ h
  intro ms
  induction ms with
  | nil => intro acc _; rfl
  | cons p ms ih =>
    intro acc hall
    rw [List.foldl_cons]
    simp only [hall p (List.mem_cons_self p ms)]
    exact ih _ fun q hq => hall q (List.mem_cons_of_mem _ hq)

/-- How `truthyApply` evaluates on a line of the shape
`indent ++ key ++ ':' ++ spaces ++ rest` with well-formed components. -/
theorem truthyApply_decomp (old new : List Char) (ind key sp rest : Line)
    (hind : ind ≠ []) (hindw : ∀ c ∈ ind, isPySpace c = true)
    (hkey : key ≠ []) (hkeyw : ∀ c ∈ key, isWordChar c = true)
    (hsp : sp ≠ []) (hspw : ∀ c ∈ sp, isPySpace c = true)
    (hrest : ∀ c, rest.head? = some c → isPySpace c = false) :
    truthyApply old new (ind ++ (key ++ (':' :: (sp ++ rest)))) =
      if old.isPrefixOf rest then
        if ((rest.drop old.length).dropWhile isPySpace).isEmpty
            || ((rest.drop old.length).dropWhile isPySpace).headD ' ' = '#' then
          some (ind ++ (key ++ (':' :: (sp ++ (new ++ rest.drop old.length)))))
        else none
      else none := by
  have hkeyhead : ∀ c, (key ++ (':' :: (sp ++ rest))).head? = some c →
      isPySpace c = false := by
    intro c hc
    cases key with
    | nil => exact absurd rfl hkey
    | cons k key' =>
      simp only [List.cons_append, List.head?_cons, Option.some.injEq] at hc
      exact hc ▸ word_not_pySpace (hkeyw k (List.mem_cons_self k key'))
  have hcolonhead : ∀ c, (':' :: (sp ++ rest)).head? = some c →
      isWordChar c = false := by
    intro c hc
    simp only [List.head?_cons, Option.some.injEq] at hc
    exact hc ▸ (by decide : isWordChar ':' = false)
  have hresthead : ∀ c, rest.head? = some c → isPySpace c = false := hrest
  have hindE : ind.isEmpty = false := by
    cases ind with
    | nil => exact absurd rfl hind
    | cons _ _ => rfl
  have hkeyE : key.isEmpty = false := by
    cases key with
    | nil => exact absurd rfl hkey
    | cons _ _ => rfl
  have hspE : sp.isEmpty = false := by
    cases sp with
    | nil => exact absurd rfl hsp
    | cons _ _ => rfl
  unfold truthyApply
  rw [takeWhile_append_of hindw hkeyhead, dropWhile_append_of hindw hkeyhead]
  simp only [hindE, Bool.false_eq_true, if_false]
  rw [takeWhile_append_of hkeyw hcolonhead, dropWhile_append_of hkeyw hcolonhead]
  simp only [hkeyE, Bool.false_eq_true, if_false]
  rw [takeWhile_append_of hspw hresthead, dropWhile_append_of hspw hresthead]
  simp only [hspE, Bool.false_eq_true, if_false]

/-- Claim C1 (code bug witness): on the line `  apt: name=foo` the `fix_fqcn`
rewrite produces `  ansible.builtin.apt:` - the text after the colon is
dropped, not preserved, because the source replaces the whole line with
`f"{indent}{fqcn}:"`. -/
theorem C1_fqcn_drops_rest :
    fqcnLine ("  apt: name=foo".toList) = "  ansible.builtin.apt:".toList ∧
      fqcnLine ("  apt: name=foo".toList) ≠ "  ansible.builtin.apt: name=foo".toList := by
  constructor
  · decide
  · decide

/-- Claim C9: `fix_fqcn` and `fix_truthy_values` leave every line with no
leading whitespace unchanged, since both patterns require at least one
leading whitespace character. -/
theorem C9_top_level_lines_unchanged (line : Line)
    (h : ∀ c, line.head? = some c → isPySpace c = false) :
    fqcnLine line = line ∧ truthyLine line = line := by
  constructor
  · exact fqcnLine_of_all_none fun p _ => fqcnApply_of_no_indent h
  · exact truthyLine_of_all_none fun p _ => truthyApply_of_no_indent h

theorem C9_top_level_lines_unchanged_witness :
    fqcnLine ("apt: name=foo".toList) = "apt: name=foo".toList ∧
      truthyLine ("enabled: yes".toList) = "enabled: yes".toList :=
  ⟨(C9_top_level_lines_unchanged ("apt: name=foo".toList) (by decide)).1,
   (C9_top_level_lines_unchanged ("enabled: yes".toList) (by decide)).2⟩

/-- Claim C6: on a line `<indent><key>: <value><trailing>` whose value is a
recognized case variant of yes/no and whose trailing part is whitespace
followed by an optional `#` comment, `fix_truthy_values` replaces the value
by the canonical true/false and preserves all surrounding text, including
the comment. -/
theorem C6_truthy_value_rewrite (ind key sp tws tc : Line) (old new : List Char)
    (hind : ind ≠ []) (hindw : ∀ c ∈ ind, isPySpace c = true)
    (hkey : key ≠ []) (hkeyw : ∀ c ∈ key, isWordChar c = true)
    (hsp : sp ≠ []) (hspw : ∀ c ∈ sp, isPySpace c = true)
    (hmem : (old, new) ∈ TRUTHY_MAPPINGS)
    (htws : ∀ c ∈ tws, isPySpace c = true)
    (htc : tc = [] ∨ tc.headD ' ' = '#') :
    truthyLine (ind ++ (key ++ (':' :: (sp ++ (old ++ (tws ++ tc)))))) =
      ind ++ (key ++ (':' :: (sp ++ (new ++ (tws ++ tc))))) := by
  have htchead : ∀ c, tc.head? = some c → isPySpace c = false := by
    intro c hc
    rcases htc with h | h
    · subst h; simp at hc
    · cases tc with
      | nil => simp at hc
      | cons t0 ts =>
        simp only [List.head?_cons, Option.some.injEq] at hc
        simp only [List.headD_cons] at h
        subst h
        exact hc ▸ (by decide : isPySpace '#' = false)
  have hdw : (tws ++ tc).dropWhile isPySpace = tc := dropWhile_append_of htws htchead
  have hcond : (tc.isEmpty || decide (tc.headD ' ' = '#')) = true := by
    rcases htc with h | h
    · subst h; rfl
    · rw [h]; simp
  have hmem' : (old, new) ∈
      ([(['y','e','s'], ['t','r','u','e']), (['n','o'], ['f','a','l','s','e']),
        (['Y','e','s'], ['t','r','u','e']), (['N','o'], ['f','a','l','s','e']),
        (['Y','E','S'], ['t','r','u','e']), (['N','O'], ['f','a','l','s','e'])] :
        List (List Char × List Char)) := hmem
  simp only [List.mem_cons, List.not_mem_nil, or_false, Prod.mk.injEq] at hmem'
  have hTM : TRUTHY_MAPPINGS =
      ([(['y','e','s'], ['t','r','u','e']), (['n','o'], ['f','a','l','s','e']),
        (['Y','e','s'], ['t','r','u','e']), (['N','o'], ['f','a','l','s','e']),
        (['Y','E','S'], ['t','r','u','e']), (['N','O'], ['f','a','l','s','e'])] :
        List (List Char × List Char)) := rfl
  rcases hmem' with ⟨ho, hn⟩ | ⟨ho, hn⟩ | ⟨ho, hn⟩ | ⟨ho, hn⟩ | ⟨ho, hn⟩ | ⟨ho, hn⟩ <;>
    subst ho <;> subst hn
  case inl =>
    have hrest : ∀ c, ((['y','e','s'] : List Char) ++ (tws ++ tc)).head? = some c →
        isPySpace c = false := by
      intro c hc
      simp only [List.cons_append, List.head?_cons, Option.some.injEq] at hc
      exact hc ▸ (by decide : isPySpace 'y' = false)
    have hdec := fun (o n : List Char) =>
      truthyApply_decomp o n ind key sp (['y','e','s'] ++ (tws ++ tc))
        hind hindw hkey hkeyw hsp hspw hrest
    have hpre : (['y','e','s'] : List Char).isPrefixOf (['y','e','s'] ++ (tws ++ tc))
        = true := List.isPrefixOf_iff_prefix.mpr (List.prefix_append _ _)
    have e1 : truthyApply ['y','e','s'] ['t','r','u','e']
        (ind ++ (key ++ (':' :: (sp ++ (['y','e','s'] ++ (tws ++ tc)))))) =
        some (ind ++ (key ++ (':' :: (sp ++ (['t','r','u','e'] ++ (tws ++ tc)))))) := by
      rw [hdec, if_pos hpre]
      simp only [List.drop_left, hdw]
      rw [if_pos hcond]
    have eno : ∀ o n : List Char, o.isPrefixOf (['y','e','s'] ++ (tws ++ tc)) = false →
        truthyApply o n (ind ++ (key ++ (':' :: (sp ++ (['y','e','s'] ++ (tws ++ tc)))))) =
        none := by
      intro o n hno
      rw [hdec, hno]
      simp
    have e2 := eno ['n','o'] ['f','a','l','s','e'] (by simp [List.isPrefixOf])
    have e3 := eno ['Y','e','s'] ['t','r','u','e'] (by simp [List.isPrefixOf])
    have e4 := eno ['N','o'] ['f','a','l','s','e'] (by simp [List.isPrefixOf])
    have e5 := eno ['Y','E','S'] ['t','r','u','e'] (by simp [List.isPrefixOf])
    have e6 := eno ['N','O'] ['f','a','l','s','e'] (by simp [List.isPrefixOf])
    unfold truthyLine
    rw [hTM]
    simp only [List.foldl_cons, List.foldl_nil, e1, e2, e3, e4, e5, e6]
  case inr.inl =>
    have hrest : ∀ c, ((['n','o'] : List Char) ++ (tws ++ tc)).head? = some c →
        isPySpace c = false := by
      intro c hc
      simp only [List.cons_append, List.head?_cons, Option.some.injEq] at hc
      exact hc ▸ (by decide : isPySpace 'n' = false)
    have hdec := fun (o n : List Char) =>
      truthyApply_decomp o n ind key sp (['n','o'] ++ (tws ++ tc))
        hind hindw hkey hkeyw hsp hspw hrest
    have hpre : (['n','o'] : List Char).isPrefixOf (['n','o'] ++ (tws ++ tc))
        = true := List.isPrefixOf_iff_prefix.mpr (List.prefix_append _ _)
    have e1 : truthyApply ['n','o'] ['f','a','l','s','e']
        (ind ++ (key ++ (':' :: (sp ++ (['n','o'] ++ (tws ++ tc)))))) =
        some (ind ++ (key ++ (':' :: (sp ++ (['f','a','l','s','e'] ++ (tws ++ tc)))))) := by
      rw [hdec, if_pos hpre]
      simp only [List.drop_left, hdw]
      rw [if_pos hcond]
    have eno : ∀ o n : List Char, o.isPrefixOf (['n','o'] ++ (tws ++ tc)) = false →
        truthyApply o n (ind ++ (key ++ (':' :: (sp ++ (['n','o'] ++ (tws ++ tc)))))) =
        none := by
      intro o n hno
      rw [hdec, hno]
      simp
    have e2 := eno ['y','e','s'] ['t','r','u','e'] (by simp [List.isPrefixOf])
    have e3 := eno ['Y','e','s'] ['t','r','u','e'] (by simp [List.isPrefixOf])
    have e4 := eno ['N','o'] ['f','a','l','s','e'] (by simp [List.isPrefixOf])
    have e5 := eno ['Y','E','S'] ['t','r','u','e'] (by simp [List.isPrefixOf])
    have e6 := eno ['N','O'] ['f','a','l','s','e'] (by simp [List.isPrefixOf])
    unfold truthyLine
    rw [hTM]
    simp only [List.foldl_cons, List.foldl_nil, e1, e2, e3, e4, e5, e6]
  case inr.inr.inl =>
    have hrest : ∀ c, ((['Y','e','s'] : List Char) ++ (tws ++ tc)).head? = some c →
        isPySpace c = false := by
      intro c hc
      simp only [List.cons_append, List.head?_cons, Option.some.injEq] at hc
      exact hc ▸ (by decide : isPySpace 'Y' = false)
    have hdec := fun (o n : List Char) =>
      truthyApply_decomp o n ind key sp (['Y','e','s'] ++ (tws ++ tc))
        hind hindw hkey hkeyw hsp hspw hrest
    have hpre : (['Y','e','s'] : List Char).isPrefixOf (['Y','e','s'] ++ (tws ++ tc))
        = true := List.isPrefixOf_iff_prefix.mpr (List.prefix_append _ _)
    have e1 : truthyApply ['Y','e','s'] ['t','r','u','e']
        (ind ++ (key ++ (':' :: (sp ++ (['Y','e','s'] ++ (tws ++ tc)))))) =
        some (ind ++ (key ++ (':' :: (sp ++ (['t','r','u','e'] ++ (tws ++ tc)))))) := by
      rw [hdec, if_pos hpre]
      simp only [List.drop_left, hdw]
      rw [if_pos hcond]
    have eno : ∀ o n : List Char, o.isPrefixOf (['Y','e','s'] ++ (tws ++ tc)) = false →
        truthyApply o n (ind ++ (key ++ (':' :: (sp ++ (['Y','e','s'] ++ (tws ++ tc)))))) =
        none := by
      intro o n hno
      rw [hdec, hno]
      simp
    have e2 := eno ['y','e','s'] ['t','r','u','e'] (by simp [List.isPrefixOf])
    have e3 := eno ['n','o'] ['f','a','l','s','e'] (by simp [List.isPrefixOf])
    have e4 := eno ['N','o'] ['f','a','l','s','e'] (by simp [List.isPrefixOf])
    have e5 := eno ['Y','E','S'] ['t','r','u','e'] (by simp [List.isPrefixOf])
    have e6 := eno ['N','O'] ['f','a','l','s','e'] (by simp [List.isPrefixOf])
    unfold truthyLine
    rw [hTM]
    simp only [List.foldl_cons, List.foldl_nil, e1, e2, e3, e4, e5, e6]
  case inr.inr.inr.inl =>
    have hrest : ∀ c, ((['N','o'] : List Char) ++ (tws ++ tc)).head? = some c →
        isPySpace c = false := by
      intro c hc
      simp only [List.cons_append, List.head?_cons, Option.some.injEq] at hc
      exact hc ▸ (by decide : isPySpace 'N' = false)
    have hdec := fun (o n : List Char) =>
      truthyApply_decomp o n ind key sp (['N','o'] ++ (tws ++ tc))
        hind hindw hkey hkeyw hsp hspw hrest
    have hpre : (['N','o'] : List Char).isPrefixOf (['N','o'] ++ (tws ++ tc))
        = true := List.isPrefixOf_iff_prefix.mpr (List.prefix_append _ _)
    have e1 : truthyApply ['N','o'] ['f','a','l','s','e']
        (ind ++ (key ++ (':' :: (sp ++ (['N','o'] ++ (tws ++ tc)))))) =
        some (ind ++ (key ++ (':' :: (sp ++ (['f','a','l','s','e'] ++ (tws ++ tc)))))) := by
      rw [hdec, if_pos hpre]
      simp only [List.drop_left, hdw]
      rw [if_pos hcond]
    have eno : ∀ o n : List Char, o.isPrefixOf (['N','o'] ++ (tws ++ tc)) = false →
        truthyApply o n (ind ++ (key ++ (':' :: (sp ++ (['N','o'] ++ (tws ++ tc)))))) =
        none := by
      intro o n hno
      rw [hdec, hno]
      simp
    have e2 := eno ['y','e','s'] ['t','r','u','e'] (by simp [List.isPrefixOf])
    have e3 := eno ['n','o'] ['f','a','l','s','e'] (by simp [List.isPrefixOf])
    have e4 := eno ['Y','e','s'] ['t','r','u','e'] (by simp [List.isPrefixOf])
    have e5 := eno ['Y','E','S'] ['t','r','u','e'] (by simp [List.isPrefixOf])
    have e6 := eno ['N','O'] ['f','a','l','s','e'] (by simp [List.isPrefixOf])
    unfold truthyLine
    rw [hTM]
    simp only [List.foldl_cons, List.foldl_nil, e1, e2, e3, e4, e5, e6]
  case inr.inr.inr.inr.inl =>
    have hrest : ∀ c, ((['Y','E','S'] : List Char) ++ (tws ++ tc)).head? = some c →
        isPySpace c = false := by
      intro c hc
      simp only [List.cons_append, List.head?_cons, Option.some.injEq] at hc
      exact hc ▸ (by decide : isPySpace 'Y' = false)
    have hdec := fun (o n : List Char) =>
      truthyApply_decomp o n ind key sp (['Y','E','S'] ++ (tws ++ tc))
        hind hindw hkey hkeyw hsp hspw hrest
    have hpre : (['Y','E','S'] : List Char).isPrefixOf (['Y','E','S'] ++ (tws ++ tc))
        = true := List.isPrefixOf_iff_prefix.mpr (List.prefix_append _ _)
    have e1 : truthyApply ['Y','E','S'] ['t','r','u','e']
        (ind ++ (key ++ (':' :: (sp ++ (['Y','E','S'] ++ (tws ++ tc)))))) =
        some (ind ++ (key ++ (':' :: (sp ++ (['t','r','u','e'] ++ (tws ++ tc)))))) := by
      rw [hdec, if_pos hpre]
      simp only [List.drop_left, hdw]
      rw [if_pos hcond]
    have eno : ∀ o n : List Char, o.isPrefixOf (['Y','E','S'] ++ (tws ++ tc)) = false →
        truthyApply o n (ind ++ (key ++ (':' :: (sp ++ (['Y','E','S'] ++ (tws ++ tc)))))) =
        none := by
      intro o n hno
      rw [hdec, hno]
      simp
    have e2 := eno ['y','e','s'] ['t','r','u','e'] (by simp [List.isPrefixOf])
    have e3 := eno ['n','o'] ['f','a','l','s','e'] (by simp [List.isPrefixOf])
    have e4 := eno ['Y','e','s'] ['t','r','u','e'] (by simp [List.isPrefixOf])
    have e5 := eno ['N','o'] ['f','a','l','s','e'] (by simp [List.isPrefixOf])
    have e6 := eno ['N','O'] ['f','a','l','s','e'] (by simp [List.isPrefixOf])
    unfold truthyLine
    rw [hTM]
    simp only [List.foldl_cons, List.foldl_nil, e1, e2, e3, e4, e5, e6]
  case inr.inr.inr.inr.inr =>
    have hrest : ∀ c, ((['N','O'] : List Char) ++ (tws ++ tc)).head? = some c →
        isPySpace c = false := by
      intro c hc
      simp only [List.cons_append, List.head?_cons, Option.some.injEq] at hc
      exact hc ▸ (by decide : isPySpace 'N' = false)
    have hdec := fun (o n : List Char) =>
      truthyApply_decomp o n ind key sp (['N','O'] ++ (tws ++ tc))
        hind hindw hkey hkeyw hsp hspw hrest
    have hpre : (['N','O'] : List Char).isPrefixOf (['N','O'] ++ (tws ++ tc))
        = true := List.isPrefixOf_iff_prefix.mpr (List.prefix_append _ _)
    have e1 : truthyApply ['N','O'] ['f','a','l','s','e']
        (ind ++ (key ++ (':' :: (sp ++ (['N','O'] ++ (tws ++ tc)))))) =
        some (ind ++ (key ++ (':' :: (sp ++ (['f','a','l','s','e'] ++ (tws ++ tc)))))) := by
      rw [hdec, if_pos hpre]
      simp only [List.drop_left, hdw]
      rw [if_pos hcond]
    have eno : ∀ o n : List Char, o.isPrefixOf (['N','O'] ++ (tws ++ tc)) = false →
        truthyApply o n (ind ++ (key ++ (':' :: (sp ++ (['N','O'] ++ (tws ++ tc)))))) =
        none := by
      intro o n hno
      rw [hdec, hno]
      simp
    have e2 := eno ['y','e','s'] ['t','r','u','e'] (by simp [List.isPrefixOf])
    have e3 := eno ['n','o'] ['f','a','l','s','e'] (by simp [List.isPrefixOf])
    have e4 := eno ['Y','e','s'] ['t','r','u','e'] (by simp [List.isPrefixOf])
    have e5 := eno ['N','o'] ['f','a','l','s','e'] (by simp [List.isPrefixOf])
    have e6 := eno ['Y','E','S'] ['t','r','u','e'] (by simp [List.isPrefixOf])
    unfold truthyLine
    rw [hTM]
    simp only [List.foldl_cons, List.foldl_nil, e1, e2, e3, e4, e5, e6]

theorem C6_truthy_value_rewrite_witness :
    truthyLine ("  ".toList ++ ("enabled".toList ++ (':' :: (" ".toList ++
        ("yes".toList ++ ("  ".toList ++ "# note".toList)))))) =
      "  ".toList ++ ("enabled".toList ++ (':' :: (" ".toList ++
        ("true".toList ++ ("  ".toList ++ "# note".toList))))) :=
  C6_truthy_value_rewrite "  ".toList "enabled".toList " ".toList "  ".toList
    "# note".toList "yes".toList "true".toList (by decide) (by decide) (by decide)
    (by decide) (by decide) (by decide) (by decide) (by decide) (by decide)

/-! ## Claim C4: the two brace-spacing transforms -/

theorem strip_eq_nil_of_all_space {l : Line} (h : ∀ c ∈ l, isPySpace c = true) :
    strip l = [] := by
  have h1 : lstrip l = [] := by
    simp only [lstrip, List.dropWhile_eq_nil_iff]
    intro x hx
    exact h x hx
  simp [strip, h1, rstrip]

theorem length_ge_three_of_padded {t : Line}
    (hh : isPySpace (t.headD '}') = true)
    (hl : isPySpace (t.getLastD '}') = true)
    (hne : strip t ≠ []) : 3 ≤ t.length := by
  match t with
  | [] => exact absurd hh (by decide)
  | [a] =>
    exfalso
    apply hne
    apply strip_eq_nil_of_all_space
    intro c hc
    simp only [List.mem_singleton] at hc
    subst hc
    simpa using hh
  | [a, b] =>
    exfalso
    apply hne
    apply strip_eq_nil_of_all_space
    intro c hc
    simp only [List.mem_cons, List.not_mem_nil, or_false] at hc
    rcases hc with rfl | rfl
    · simpa using hh
    · simpa using hl
  | a :: b :: c :: t' => simp [List.length_cons]

theorem braceMatch_eval (t rest : List Char)
    (hnb : ∀ c ∈ t, c ≠ '}')
    (hh : isPySpace (t.headD '}') = true)
    (hl : isPySpace (t.getLastD '}') = true)
    (hne : strip t ≠ []) :
    braceMatch (t ++ ('}' :: '}' :: rest)) = some (strip t, rest) := by
  have htake : (t ++ ('}' :: '}' :: rest)).takeWhile (fun c => c ≠ '}') = t :=
    takeWhile_append_of (fun c hc => by simp [hnb c hc])
      (fun c hc => by
        simp only [List.head?_cons, Option.some.injEq] at hc
        subst hc
        decide)
  have hdrop : (t ++ ('}' :: '}' :: rest)).dropWhile (fun c => c ≠ '}') =
      '}' :: '}' :: rest :=
    dropWhile_append_of (fun c hc => by simp [hnb c hc])
      (fun c hc => by
        simp only [List.head?_cons, Option.some.injEq] at hc
        subst hc
        decide)
  have hlen : 3 ≤ t.length := length_ge_three_of_padded hh hl hne
  have hh' : isPySpace (t.head?.getD '}') = true := by simpa using hh
  have hl' : isPySpace (t.getLast?.getD '}') = true := by simpa using hl
  unfold braceMatch
  rw [hdrop, htake]
  simp [hh', hl', hlen, hne]

theorem braceSub_single (t : List Char)
    (hnb : ∀ c ∈ t, c ≠ '}')
    (hh : isPySpace (t.headD '}') = true)
    (hl : isPySpace (t.getLastD '}') = true)
    (hne : strip t ≠ []) :
    braceSub ('{' :: '{' :: (t ++ ('}' :: '}' :: []))) =
      '{' :: '{' :: (strip t ++ ('}' :: '}' :: [])) := by
  show braceSubAux _ _ = _
  simp only [List.length_cons]
  rw [braceSubAux]
  simp only [if_pos rfl]
  rw [braceMatch_eval t [] hnb hh hl hne]
  simp [braceSubAux]

theorem jinjaMatch_eval_rewrite (m rest : List Char)
    (hm : ∀ c ∈ m, c ≠ '}') (hmne : m ≠ [])
    (hmp : (m.headD '}' = ' ' ∧ m.getLastD '}' = ' ') → False) :
    jinjaMatch (m ++ ('}' :: '}' :: rest)) =
      some (' ' :: strip m ++ [' '], rest) := by
  have htake : (m ++ ('}' :: '}' :: rest)).takeWhile (fun c => c ≠ '}') = m :=
    takeWhile_append_of (fun c hc => by simp [hm c hc])
      (fun c hc => by
        simp only [List.head?_cons, Option.some.injEq] at hc
        subst hc
        decide)
  have hdrop : (m ++ ('}' :: '}' :: rest)).dropWhile (fun c => c ≠ '}') =
      '}' :: '}' :: rest :=
    dropWhile_append_of (fun c hc => by simp [hm c hc])
      (fun c hc => by
        simp only [List.head?_cons, Option.some.injEq] at hc
        subst hc
        decide)
  have hie : m.isEmpty = false := by
    cases m with
    | nil => exact absurd rfl hmne
    | cons _ _ => rfl
  have hcond : (decide (m.head?.getD '}' = ' ') && decide (m.getLast?.getD '}' = ' '))
      = false := by
    by_contra hcontra
    rw [Bool.not_eq_false, Bool.and_eq_true, decide_eq_true_eq, decide_eq_true_eq]
      at hcontra
    refine hmp ?_
    constructor
    · simpa using hcontra.1
    · simpa using hcontra.2
  unfold jinjaMatch
  rw [hdrop, htake]
  have hmne' : ¬(m = []) := hmne
  simp [hmne', hcond]

theorem jinjaMatch_eval_padded (m rest : List Char)
    (hm : ∀ c ∈ m, c ≠ '}') (hmne : m ≠ [])
    (hh : m.headD '}' = ' ') (hl : m.getLastD '}' = ' ') :
    jinjaMatch (m ++ ('}' :: '}' :: rest)) = some (m, rest) := by
  have htake : (m ++ ('}' :: '}' :: rest)).takeWhile (fun c => c ≠ '}') = m :=
    takeWhile_append_of (fun c hc => by simp [hm c hc])
      (fun c hc => by
        simp only [List.head?_cons, Option.some.injEq] at hc
        subst hc
        decide)
  have hdrop : (m ++ ('}' :: '}' :: rest)).dropWhile (fun c => c ≠ '}') =
      '}' :: '}' :: rest :=
    dropWhile_append_of (fun c hc => by simp [hm c hc])
      (fun c hc => by
        simp only [List.head?_cons, Option.some.injEq] at hc
        subst hc
        decide)
  have hh' : m.head?.getD '}' = ' ' := by simpa using hh
  have hl' : m.getLast?.getD '}' = ' ' := by simpa using hl
  unfold jinjaMatch
  rw [hdrop, htake]
  have hmne' : ¬(m = []) := hmne
  simp [hmne', hh', hl']

theorem jinja2Sub_single_rewrite (m : List Char)
    (hm : ∀ c ∈ m, c ≠ '}') (hmne : m ≠ [])
    (hmp : (m.headD '}' = ' ' ∧ m.getLastD '}' = ' ') → False) :
    jinja2Sub ('{' :: '{' :: (m ++ ('}' :: '}' :: []))) =
      '{' :: '{' :: (' ' :: strip m ++ (' ' :: '}' :: '}' :: [])) := by
  show jinja2SubAux _ _ = _
  simp only [List.length_cons]
  rw [jinja2SubAux]
  simp only [if_pos rfl]
  rw [jinjaMatch_eval_rewrite m [] hm hmne hmp]
  simp [jinja2SubAux]

theorem jinja2Sub_single_padded (m : List Char)
    (hm : ∀ c ∈ m, c ≠ '}') (hmne : m ≠ [])
    (hh : m.headD '}' = ' ') (hl : m.getLastD '}' = ' ') :
    jinja2Sub ('{' :: '{' :: (m ++ ('}' :: '}' :: []))) =
      '{' :: '{' :: (m ++ ('}' :: '}' :: [])) := by
  show jinja2SubAux _ _ = _
  simp only [List.length_cons]
  rw [jinja2SubAux]
  simp only [if_pos rfl]
  rw [jinjaMatch_eval_padded m [] hm hmne hh hl]
  simp [jinja2SubAux]

/-- Claim C4 counterexample: the claim as stated fails on the code.
`fix_brace_spacing` leaves `{{ x}}` unchanged although its interior has
padding (the pattern needs whitespace on both sides), and
`fix_jinja2_spacing` leaves `{{  x  }}` with two spaces of padding
unchanged rather than normalizing it to exactly one space per side. -/
theorem C4_counterexample :
    (fix_brace_spacing ("\x7b\x7b x\x7d\x7d".toList)).1 = "\x7b\x7b x\x7d\x7d".toList ∧
      (fix_jinja2_spacing ("\x7b\x7b  x  \x7d\x7d".toList)).1 =
        "\x7b\x7b  x  \x7d\x7d".toList ∧
      "\x7b\x7b  x  \x7d\x7d".toList ≠ "\x7b\x7b x \x7d\x7d".toList := by
  refine ⟨by decide, by decide, by decide⟩

/-- Claim C4 (amended): `fix_brace_spacing` collapses a double-brace
expression to zero padding whenever the interior has at least one
whitespace character on each side (the interior is stripped);
`fix_jinja2_spacing` rewrites a double-brace expression to exactly one
space of padding per side whenever the interior does not already both
start and end with a space, and leaves an already space-padded interior
unchanged; the two transforms differ on the common input `{{x}}`. -/
theorem C4_brace_conventions (t m p : List Char)
    (hnb : ∀ c ∈ t, c ≠ '}')
    (hh : isPySpace (t.headD '}') = true)
    (hl : isPySpace (t.getLastD '}') = true)
    (hne : strip t ≠ [])
    (hm : ∀ c ∈ m, c ≠ '}') (hmne : m ≠ [])
    (hmp : (m.headD '}' = ' ' ∧ m.getLastD '}' = ' ') → False)
    (hp : ∀ c ∈ p, c ≠ '}') (hpne : p ≠ [])
    (hph : p.headD '}' = ' ') (hpl : p.getLastD '}' = ' ') :
    (fix_brace_spacing ('{' :: '{' :: (t ++ ('}' :: '}' :: [])))).1 =
        '{' :: '{' :: (strip t ++ ('}' :: '}' :: [])) ∧
      (fix_jinja2_spacing ('{' :: '{' :: (m ++ ('}' :: '}' :: [])))).1 =
        '{' :: '{' :: (' ' :: strip m ++ (' ' :: '}' :: '}' :: [])) ∧
      (fix_jinja2_spacing ('{' :: '{' :: (p ++ ('}' :: '}' :: [])))).1 =
        '{' :: '{' :: (p ++ ('}' :: '}' :: [])) ∧
      (fix_brace_spacing ("\x7b\x7bx\x7d\x7d".toList)).1 ≠
        (fix_jinja2_spacing ("\x7b\x7bx\x7d\x7d".toList)).1 := by
  refine ⟨braceSub_single t hnb hh hl hne, jinja2Sub_single_rewrite m hm hmne hmp,
    jinja2Sub_single_padded p hp hpne hph hpl, by decide⟩

theorem C4_brace_conventions_witness :
    (fix_brace_spacing ('{' :: '{' :: (" x ".toList ++ ('}' :: '}' :: [])))).1 =
        '{' :: '{' :: (strip " x ".toList ++ ('}' :: '}' :: [])) ∧
      (fix_jinja2_spacing ('{' :: '{' :: ("x".toList ++ ('}' :: '}' :: [])))).1 =
        '{' :: '{' :: (' ' :: strip "x".toList ++ (' ' :: '}' :: '}' :: [])) ∧
      (fix_jinja2_spacing ('{' :: '{' :: (" y ".toList ++ ('}' :: '}' :: [])))).1 =
        '{' :: '{' :: (" y ".toList ++ ('}' :: '}' :: [])) ∧
      (fix_brace_spacing ("\x7b\x7bx\x7d\x7d".toList)).1 ≠
        (fix_jinja2_spacing ("\x7b\x7bx\x7d\x7d".toList)).1 :=
  C4_brace_conventions " x ".toList "x".toList " y ".toList
    (by decide) (by decide) (by decide) (by decide) (by decide) (by decide)
    (by decide) (by decide) (by decide) (by decide) (by decide)

/-! ## Claim C8: end-of-file newline normalization -/

theorem dropTrailingNl_no_nl {m : List Char}
    (hm : ∀ c, m.getLast? = some c → c ≠ '\n') :
    dropTrailingNl m = m := by
  unfold dropTrailingNl
  have h : m.reverse.dropWhile (· = '\n') = m.reverse := by
    cases hrev : m.reverse with
    | nil => rfl
    | cons a l =>
      have ha : m.getLast? = some a := by
        rw [← List.head?_reverse, hrev]
        rfl
      simp [List.dropWhile_cons, hm a ha]
  rw [h, List.reverse_reverse]

/-- Claim C8: `fix_eof_newline` appends exactly one newline when the content
does not end with one (first conjunct, which also covers the empty content),
and collapses any positive number of trailing newlines - in particular two
or more - to exactly one (second conjunct; `k = 1` is the case of content
already ending in exactly one newline, which is returned unchanged). -/
theorem C8_eof_normalization (m : List Char)
    (hm : ∀ c, m.getLast? = some c → c ≠ '\n') :
    fix_eof_newline m = m ++ ['\n'] ∧
      ∀ k : Nat, fix_eof_newline (m ++ List.replicate k '\n') = m ++ ['\n'] := by
  have h1 : dropTrailingNl m = m := dropTrailingNl_no_nl hm
  constructor
  · rw [fix_eof_newline, h1]
  · intro k
    have h2 : dropTrailingNl (m ++ List.replicate k '\n') = m := by
      unfold dropTrailingNl
      rw [List.reverse_append, List.reverse_replicate]
      rw [dropWhile_append_of
        (fun c hc => by
          rw [List.eq_of_mem_replicate hc]
          decide)
        (fun c hc => by
          have : m.getLast? = some c := by rw [← List.head?_reverse]; exact hc
          simpa using hm c this)]
      rw [List.reverse_reverse]
    rw [fix_eof_newline, h2]

theorem C8_eof_normalization_witness :
    fix_eof_newline "x".toList = "x".toList ++ ['\n'] ∧
      fix_eof_newline ("x".toList ++ List.replicate 3 '\n') = "x".toList ++ ['\n'] :=
  ⟨(C8_eof_normalization "x".toList (by decide)).1,
   (C8_eof_normalization "x".toList (by decide)).2 3⟩

/-! ## check_file membership lemmas, claims C5 and C7 -/

theorem mem_ite_singleton {p : Prop} [Decidable p] {x y : Issue}
    (h : x ∈ (if p then [y] else ([] : List Issue))) : x = y ∧ p := by
  split at h
  · next hp =>
    simp only [List.mem_singleton] at h
    exact ⟨h, hp⟩
  · simp at h

theorem mem_ite_replicate {p : Prop} [Decidable p] {n : Nat} {x y : Issue}
    (h : x ∈ (if p then List.replicate n y else ([] : List Issue))) : x = y ∧ p := by
  split at h
  · next hp => exact ⟨List.eq_of_mem_replicate h, hp⟩
  · simp at h

theorem lineIssues_fst {i : Nat} {inC : Bool} {prev line : Line} {rest : List Line}
    {j : Nat} {r : Rule} (h : (j, r) ∈ lineIssues i inC prev line rest) : j = i := by
  simp only [lineIssues, List.mem_append] at h
  rcases h with (((((((h | h) | h) | h) | h) | h) | h) | h) <;>
    first
      | exact (Prod.ext_iff.mp (mem_ite_singleton h).1).1
      | exact (Prod.ext_iff.mp (mem_ite_replicate h).1).1

theorem checkLoop_ge {ls : List Line} : ∀ {i : Nat} {inC : Bool} {prev : Line}
    {j : Nat} {r : Rule}, (j, r) ∈ checkLoop i inC prev ls → i ≤ j := by
  induction ls with
  | nil => intro i inC prev j r h; simp [checkLoop] at h
  | cons line rest ih =>
    intro i inC prev j r h
    rw [checkLoop] at h
    rcases List.mem_append.mp h with h | h
    · exact (lineIssues_fst h).ge
    · exact Nat.le_of_succ_le (ih h)

/-- The MD009 firing condition of `check_file`. -/
def md009Fires (l : Line) : Prop :=
  rstrip l ≠ l ∧ l.length - (rstrip l).length ≠ 2

theorem lineIssues_md009 {i : Nat} {inC : Bool} {prev line : Line} {rest : List Line}
    {j : Nat} : ((j, Rule.MD009) ∈ lineIssues i inC prev line rest) ↔
      (j = i ∧ md009Fires line) := by
  constructor
  · intro h
    simp only [lineIssues, List.mem_append] at h
    rcases h with (((((((h | h) | h) | h) | h) | h) | h) | h)
    · exact absurd (Prod.ext_iff.mp (mem_ite_singleton h).1).2 (by simp)
    · exact absurd (Prod.ext_iff.mp (mem_ite_singleton h).1).2 (by simp)
    · exact absurd (Prod.ext_iff.mp (mem_ite_singleton h).1).2 (by simp)
    · exact absurd (Prod.ext_iff.mp (mem_ite_singleton h).1).2 (by simp)
    · exact absurd (Prod.ext_iff.mp (mem_ite_singleton h).1).2 (by simp)
    · obtain ⟨heq, hc⟩ := mem_ite_singleton h
      exact ⟨(Prod.ext_iff.mp heq).1, hc⟩
    · exact absurd (Prod.ext_iff.mp (mem_ite_singleton h).1).2 (by simp)
    · exact absurd (Prod.ext_iff.mp (mem_ite_replicate h).1).2 (by simp)
  · rintro ⟨rfl, hf⟩
    simp [lineIssues, hf.1, hf.2]

theorem lineIssues_md022after {i : Nat} {inC : Bool} {prev line : Line}
    {rest : List Line} {j : Nat}
    (h : (j, Rule.MD022After) ∈ lineIssues i inC prev line rest) :
    j = i ∧ ∃ nb rest', rest = nb :: rest' ∧ (['#'].isPrefixOf nb) = false := by
  simp only [lineIssues, List.mem_append] at h
  rcases h with (((((((h | h) | h) | h) | h) | h) | h) | h)
  · exact absurd (Prod.ext_iff.mp (mem_ite_singleton h).1).2 (by simp)
  · exact absurd (Prod.ext_iff.mp (mem_ite_singleton h).1).2 (by simp)
  · exact absurd (Prod.ext_iff.mp (mem_ite_singleton h).1).2 (by simp)
  · exact absurd (Prod.ext_iff.mp (mem_ite_singleton h).1).2 (by simp)
  · obtain ⟨heq, hc⟩ := mem_ite_singleton h
    obtain ⟨-, -, hne, -, hpre⟩ := hc
    cases hrest : rest with
    | nil => exact absurd hrest hne
    | cons nb rest' =>
      refine ⟨(Prod.ext_iff.mp heq).1, nb, rest', rfl, ?_⟩
      rw [hrest] at hpre
      simpa using hpre
  · exact absurd (Prod.ext_iff.mp (mem_ite_singleton h).1).2 (by simp)
  · exact absurd (Prod.ext_iff.mp (mem_ite_singleton h).1).2 (by simp)
  · exact absurd (Prod.ext_iff.mp (mem_ite_replicate h).1).2 (by simp)

theorem checkLoop_md009_iff {ls : List Line} : ∀ {i : Nat} {inC : Bool} {prev : Line}
    (d : Nat), ((i + d, Rule.MD009) ∈ checkLoop i inC prev ls ↔
      ∃ l, ls.get? d = some l ∧ md009Fires l) := by
  induction ls with
  | nil => intro i inC prev d; simp [checkLoop]
  | cons line rest ih =>
    intro i inC prev d
    rw [checkLoop, List.mem_append]
    cases d with
    | zero =>
      simp only [Nat.add_zero, List.get?_cons_zero]
      constructor
      · intro h
        rcases h with h | h
        · exact ⟨line, rfl, (lineIssues_md009.mp h).2⟩
        · have := checkLoop_ge h
          omega
      · rintro ⟨l, hl, hf⟩
        rw [Option.some.injEq] at hl
        subst hl
        exact Or.inl (lineIssues_md009.mpr ⟨rfl, hf⟩)
    | succ k =>
      rw [show i + (k + 1) = (i + 1) + k by omega]
      simp only [List.get?_cons_succ]
      constructor
      · intro h
        rcases h with h | h
        · have := lineIssues_fst h
          omega
        · exact (ih k).mp h
      · intro hex
        exact Or.inr ((ih k).mpr hex)

theorem check_file_md009_iff (lines : List Line) (trailNl : Bool) (d : Nat) :
    ((1 + d, Rule.MD009) ∈ check_file lines trailNl ↔
      ∃ l, lines.get? d = some l ∧ md009Fires l) := by
  unfold check_file
  rw [List.mem_append]
  constructor
  · intro h
    rcases h with h | h
    · exact (checkLoop_md009_iff d).mp h
    · exfalso
      revert h
      split
      · intro h
        simp only [List.mem_singleton, Prod.mk.injEq] at h
        omega
      · split
        · intro h
          simp only [List.mem_singleton, Prod.mk.injEq] at h
          omega
        · intro h
          simp at h
  · intro hex
    exact Or.inl ((checkLoop_md009_iff d).mpr hex)

theorem dropWhile_eq_self_head {p : Char → Bool} {l : List Char}
    (h : l.dropWhile p = l) : ∀ c, l.head? = some c → p c = false := by
  intro c hc
  cases l with
  | nil => simp at hc
  | cons a tail =>
    simp only [List.head?_cons, Option.some.injEq] at hc
    subst hc
    by_contra hpc
    rw [Bool.not_eq_false] at hpc
    rw [List.dropWhile_cons, if_pos hpc] at h
    have hlen := congrArg List.length h
    have hle : (tail.dropWhile p).length ≤ tail.length :=
      (List.dropWhile_suffix p).length_le
    simp only [List.length_cons] at hlen
    omega

theorem rstrip_append_spaces {m : Line} (hm : rstrip m = m) (k : Nat) :
    rstrip (m ++ List.replicate k ' ') = m := by
  have hm' : m.reverse.dropWhile isPySpace = m.reverse := by
    have h := congrArg List.reverse hm
    rw [rstrip, List.reverse_reverse] at h
    exact h
  rw [rstrip, List.reverse_append, List.reverse_replicate]
  rw [dropWhile_append_of
    (fun c hc => by rw [List.eq_of_mem_replicate hc]; decide)
    (dropWhile_eq_self_head hm')]
  rw [List.reverse_reverse]

theorem md009Fires_spaces {m : Line} (hm : rstrip m = m) (k : Nat) :
    md009Fires (m ++ List.replicate k ' ') ↔ (k ≠ 0 ∧ k ≠ 2) := by
  unfold md009Fires
  rw [rstrip_append_spaces hm]
  constructor
  · rintro ⟨h1, h2⟩
    constructor
    · intro hk
      subst hk
      simp at h1
    · intro hk
      subst hk
      refine h2 ?_
      simp [List.length_append]
  · rintro ⟨h1, h2⟩
    constructor
    · intro heq
      have := congrArg List.length heq
      simp [List.length_append] at this
      exact h1 this
    · simp only [List.length_append, List.length_replicate]
      omega

/-- Claim C5: `check_file` never flags a line whose trailing whitespace is
exactly two spaces, and always flags a line whose trailing whitespace is
exactly one space or three or more spaces.  `m` is the line without its
trailing spaces (`rstrip m = m` says it has no trailing whitespace of its
own), `k` the number of trailing spaces, and line numbers are 1-based. -/
theorem C5_trailing_space_rule (lines : List Line) (trailNl : Bool) (i k : Nat)
    (m : Line) (hline : lines.get? i = some (m ++ List.replicate k ' '))
    (hm : rstrip m = m) :
    (k = 2 → (1 + i, Rule.MD009) ∉ check_file lines trailNl) ∧
      ((k = 1 ∨ 3 ≤ k) → (1 + i, Rule.MD009) ∈ check_file lines trailNl) := by
  constructor
  · intro hk hmem
    obtain ⟨l, hl, hf⟩ := (check_file_md009_iff lines trailNl i).mp hmem
    rw [hline, Option.some.injEq] at hl
    subst hl
    subst hk
    exact ((md009Fires_spaces hm 2).mp hf).2 rfl
  · intro hk
    refine (check_file_md009_iff lines trailNl i).mpr ⟨_, hline, ?_⟩
    refine (md009Fires_spaces hm k).mpr ⟨?_, ?_⟩ <;> omega

theorem C5_trailing_space_rule_witness :
    ((1 + 0, Rule.MD009) ∉ check_file ["a  ".toList] true) ∧
      ((1 + 1, Rule.MD009) ∈ check_file ["a  ".toList, "b ".toList] true) :=
  ⟨(C5_trailing_space_rule ["a  ".toList] true 0 2 "a".toList (by decide)
      (by decide)).1 rfl,
   (C5_trailing_space_rule ["a  ".toList, "b ".toList] true 1 1 "b".toList
      (by decide) (by decide)).2 (Or.inl rfl)⟩

theorem checkLoop_md022after {ls : List Line} : ∀ {i : Nat} {inC : Bool} {prev : Line}
    (d : Nat), (i + d, Rule.MD022After) ∈ checkLoop i inC prev ls →
      ∃ nb, ls.get? (d + 1) = some nb ∧ (['#'].isPrefixOf nb) = false := by
  induction ls with
  | nil => intro i inC prev d h; simp [checkLoop] at h
  | cons line rest ih =>
    intro i inC prev d h
    rw [checkLoop] at h
    rcases List.mem_append.mp h with h | h
    · obtain ⟨heq, nb, rest', hrest, hpre⟩ := lineIssues_md022after h
      have hd : d = 0 := by omega
      subst hd
      subst hrest
      exact ⟨nb, rfl, hpre⟩
    · have hge := checkLoop_ge h
      have hd : 1 ≤ d := by omega
      obtain ⟨k, rfl⟩ : ∃ k, d = k + 1 := ⟨d - 1, by omega⟩
      rw [show i + (k + 1) = (i + 1) + k by omega] at h
      obtain ⟨nb, hnb, hpre⟩ := ih k h
      exact ⟨nb, by simpa using hnb, hpre⟩

/-- Claim C7: a heading line immediately followed by another heading line is
never flagged by `check_file` for a missing blank line after the heading
(1-based line number `1 + i` for the 0-based index `i`). -/
theorem C7_heading_after_heading (lines : List Line) (trailNl : Bool) (i : Nat)
    (a b : Line) (ha : lines.get? i = some a) (hb : lines.get? (i + 1) = some b)
    (hah : (['#'].isPrefixOf a) = true ∧ a.contains ' ' = true)
    (hbh : (['#'].isPrefixOf b) = true ∧ b.contains ' ' = true) :
    (1 + i, Rule.MD022After) ∉ check_file lines trailNl := by
  intro hmem
  unfold check_file at hmem
  rcases List.mem_append.mp hmem with h | h
  · obtain ⟨nb, hnb, hpre⟩ := checkLoop_md022after i h
    rw [hb, Option.some.injEq] at hnb
    subst hnb
    rw [hbh.1] at hpre
    exact absurd hpre (by decide)
  · revert h
    split
    · intro h
      simp only [List.mem_singleton, Prod.mk.injEq] at h
      exact absurd h.2 (by simp)
    · split
      · intro h
        simp only [List.mem_singleton, Prod.mk.injEq] at h
        exact absurd h.2 (by simp)
      · intro h
        simp at h

theorem C7_heading_after_heading_witness :
    (1 + 0, Rule.MD022After) ∉ check_file ["# a".toList, "# b".toList] true :=
  C7_heading_after_heading ["# a".toList, "# b".toList] true 0
    "# a".toList "# b".toList (by decide) (by decide)
    ⟨by decide, by decide⟩ ⟨by decide, by decide⟩

/-! ## Claim C2 (concrete evaluation) and Claim C10 -/

/-- Claim C2 (code bug witness): the document
`\`\`\`text / (blank) / \`\`\`x / y` has a closing fence on line 3 whose next
line is non-blank and which is not the last line, yet `check_file` reports
no issue at all; `fix_blank_lines_around_fences` does insert the blank
line.  On `\`\`\`text / x / \`\`\` / y` the missing-blank-after-fence issue is
emitted at line 1 - the opening fence - because the checks read the fence
state after it is toggled, the opposite of what the source's comments say. -/
theorem C2_fence_check_eval :
    check_file ["```text".toList, [], "```x".toList, "y".toList] true = [] ∧
      fixFencesLines ["```text".toList, [], "```x".toList, "y".toList] =
        ["```text".toList, [], "```x".toList, [], "y".toList] ∧
      check_file ["```text".toList, "x".toList, "```".toList, "y".toList] true =
        [(1, Rule.MD031After), (3, Rule.MD040), (3, Rule.MD031Before)] := by
  refine ⟨by decide, by decide, by decide⟩

theorem Ins.sublist {xs ys : List Line} (h : Ins xs ys) : xs.Sublist ys := by
  induction h with
  | nil => exact List.Sublist.refl []
  | cons x h ih => exact List.Sublist.cons₂ x ih
  | blank h ih => exact List.Sublist.cons [] ih

theorem Ins.mem_or_blank {xs ys : List Line} (h : Ins xs ys) :
    ∀ y ∈ ys, y ∈ xs ∨ y = [] := by
  induction h with
  | nil => intro y hy; simp at hy
  | cons x h ih =>
    intro y hy
    rcases List.mem_cons.mp hy with rfl | hy
    · exact Or.inl (List.mem_cons_self _ _)
    · rcases ih y hy with h' | h'
      · exact Or.inl (List.mem_cons_of_mem _ h')
      · exact Or.inr h'
  | blank h ih =>
    intro y hy
    rcases List.mem_cons.mp hy with rfl | hy
    · exact Or.inr rfl
    · exact ih y hy

theorem fixHeadLoop_ins : ∀ (ls : List Line) (prev : Line) (lo : Option Line),
    Ins ls (fixHeadLoop prev lo ls) := by
  intro ls
  induction ls with
  | nil => intro prev lo; exact Ins.nil
  | cons line rest ih =>
    intro prev lo
    cases hb : hBefore prev lo line <;> cases hp : hAfter line (rest.headD []) <;>
      simp only [fixHeadLoop, hb, hp, Bool.false_eq_true, if_false, if_true,
        List.nil_append, List.singleton_append, List.cons_append]
    · exact Ins.cons _ (ih _ _)
    · exact Ins.cons _ (Ins.blank (ih _ _))
    · exact Ins.blank (Ins.cons _ (ih _ _))
    · exact Ins.blank (Ins.cons _ (Ins.blank (ih _ _)))

theorem fixFenceLoop_ins : ∀ (ls : List Line) (inF : Bool) (prev : Line)
    (lo : Option Line), Ins ls (fixFenceLoop inF prev lo ls) := by
  intro ls
  induction ls with
  | nil => intro inF prev lo; exact Ins.nil
  | cons line rest ih =>
    intro inF prev lo
    cases hf : isFence line
    · simp only [fixFenceLoop, hf, Bool.false_eq_true, if_false]
      exact Ins.cons _ (ih _ _ _)
    · cases inF
      · cases hb : fBefore prev lo <;>
          simp only [fixFenceLoop, hf, hb, Bool.false_eq_true, if_false, if_true,
            List.nil_append, List.singleton_append, List.cons_append]
        · exact Ins.cons _ (ih _ _ _)
        · exact Ins.blank (Ins.cons _ (ih _ _ _))
      · cases hp : (!rest.isEmpty && !(strip (rest.headD [])).isEmpty) <;>
          simp only [fixFenceLoop, hf, hp, Bool.false_eq_true, if_false, if_true,
            List.nil_append, List.singleton_append, List.cons_append]
        · exact Ins.cons _ (ih _ _ _)
        · exact Ins.cons _ (Ins.blank (ih _ _ _))

theorem fixListLoop_ins : ∀ (ls : List Line) (inL : Bool) (prev : Line)
    (lo : Option Line), Ins ls (fixListLoop inL prev lo ls) := by
  intro ls
  induction ls with
  | nil => intro inL prev lo; exact Ins.nil
  | cons line rest ih =>
    intro inL prev lo
    cases hl : isListLine line <;> cases inL
    · simp only [fixListLoop, hl, Bool.false_eq_true, if_false]
      exact Ins.cons _ (ih _ _ _)
    · cases he : lExitIns line lo <;>
        simp only [fixListLoop, hl, he, Bool.false_eq_true, if_false, if_true,
          List.nil_append, List.singleton_append, List.cons_append]
      · exact Ins.cons _ (ih _ _ _)
      · exact Ins.blank (Ins.cons _ (ih _ _ _))
    · cases hb : lBefore prev lo <;>
        simp only [fixListLoop, hl, hb, Bool.false_eq_true, if_false, if_true,
          List.nil_append, List.singleton_append, List.cons_append]
      · exact Ins.cons _ (ih _ _ _)
      · exact Ins.blank (Ins.cons _ (ih _ _ _))
    · simp only [fixListLoop, hl, if_true]
      exact Ins.cons _ (ih _ _ _)

/-- Claim C10: each of the three blank-line fixers only inserts empty lines:
the input is a subsequence of the output (so every input line appears
unmodified and in order), and every output line not taken from the input
is the empty line.  `Ins` is the inductive statement of exactly this
insertion relation. -/
theorem C10_fixers_only_insert_blanks (ls : List Line) :
    (Ins ls (fixHeadingsLines ls) ∧ ls.Sublist (fixHeadingsLines ls) ∧
        ∀ y ∈ fixHeadingsLines ls, y ∈ ls ∨ y = []) ∧
      (Ins ls (fixFencesLines ls) ∧ ls.Sublist (fixFencesLines ls) ∧
        ∀ y ∈ fixFencesLines ls, y ∈ ls ∨ y = []) ∧
      (Ins ls (fixListsLines ls) ∧ ls.Sublist (fixListsLines ls) ∧
        ∀ y ∈ fixListsLines ls, y ∈ ls ∨ y = []) := by
  refine ⟨⟨fixHeadLoop_ins ls [] none, ?_, ?_⟩,
    ⟨fixFenceLoop_ins ls false [] none, ?_, ?_⟩,
    ⟨fixListLoop_ins ls false [] none, ?_, ?_⟩⟩
  · exact (fixHeadLoop_ins ls [] none).sublist
  · exact (fixHeadLoop_ins ls [] none).mem_or_blank
  · exact (fixFenceLoop_ins ls false [] none).sublist
  · exact (fixFenceLoop_ins ls false [] none).mem_or_blank
  · exact (fixListLoop_ins ls false [] none).sublist
  · exact (fixListLoop_ins ls false [] none).mem_or_blank

/-! ## Claim C3: the fix-markdown pipeline is idempotent.

The proof works at the level of line lists.  `splitNl`/`joinNl` are
mutually inverse on non-empty newline-free line lists, every fixer stage
preserves those invariants, and each stage is shown to be the identity on
the final output of the whole pipeline. -/

/-- No line of the list contains a newline character. -/
def NlFree (ls : List Line) : Prop := ∀ l ∈ ls, '\n' ∉ l

theorem splitNl_ne_nil (c : List Char) : splitNl c ≠ [] := by
  induction c with
  | nil => simp [splitNl]
  | cons a cs ih =>
    rw [splitNl]
    split
    · simp
    · split
      · simp
      · simp

theorem splitNl_nlFree (c : List Char) : NlFree (splitNl c) := by
  induction c with
  | nil =>
    intro l hl
    simp only [splitNl, List.mem_singleton] at hl
    subst hl
    simp
  | cons a cs ih =>
    intro l hl
    rw [splitNl] at hl
    split at hl
    · rcases List.mem_cons.mp hl with rfl | hl
      · simp
      · exact ih l hl
    · next hna =>
      split at hl
      · next heq => exact absurd heq (splitNl_ne_nil cs)
      · next l0 ls0 heq =>
        rcases List.mem_cons.mp hl with rfl | hl
        · intro hmem
          rcases List.mem_cons.mp hmem with h | h
          · exact hna h.symm
          · exact ih l0 (heq ▸ List.mem_cons_self l0 ls0) h
        · exact ih l (heq ▸ List.mem_cons_of_mem l0 hl)

theorem splitNl_single {l : List Char} (h : '\n' ∉ l) : splitNl l = [l] := by
  induction l with
  | nil => rfl
  | cons c cs ih =>
    have hc : c ≠ '\n' := fun hc => h (hc ▸ List.mem_cons_self c cs)
    have hcs : '\n' ∉ cs := fun hm => h (List.mem_cons_of_mem c hm)
    rw [splitNl, if_neg hc, ih hcs]

theorem splitNl_append_nl {l rest : List Char} (h : '\n' ∉ l) :
    splitNl (l ++ '\n' :: rest) = l :: splitNl rest := by
  induction l with
  | nil => simp [splitNl]
  | cons c cs ih =>
    have hc : c ≠ '\n' := fun hc => h (hc ▸ List.mem_cons_self c cs)
    have hcs : '\n' ∉ cs := fun hm => h (List.mem_cons_of_mem c hm)
    rw [List.cons_append, splitNl, if_neg hc, ih hcs]

theorem splitNl_joinNl : ∀ {ls : List Line}, ls ≠ [] → NlFree ls →
    splitNl (joinNl ls) = ls
  | [], h, _ => absurd rfl h
  | [l], _, hnl => by
    rw [joinNl, splitNl_single (hnl l (List.mem_cons_self l []))]
  | l :: l' :: ls, _, hnl => by
    rw [joinNl, splitNl_append_nl (hnl l (List.mem_cons_self _ _))]
    rw [splitNl_joinNl (by simp) fun x hx => hnl x (List.mem_cons_of_mem l hx)]

theorem nlFree_map_rstrip {ls : List Line} (h : NlFree ls) :
    NlFree (ls.map rstrip) := by
  intro l hl
  obtain ⟨x, hx, rfl⟩ := List.mem_map.mp hl
  intro hmem
  refine h x hx ?_
  rw [rstrip, List.mem_reverse] at hmem
  exact List.mem_reverse.mp ((List.dropWhile_suffix isPySpace).sublist.subset hmem)

theorem map_ne_nil {ls : List Line} (h : ls ≠ []) : ls.map rstrip ≠ [] := by
  cases ls with
  | nil => exact absurd rfl h
  | cons a l => simp

theorem ins_ne_nil {xs ys : List Line} (h : Ins xs ys) (hx : xs ≠ []) : ys ≠ [] := by
  intro hy
  subst hy
  exact hx (List.sublist_nil.mp h.sublist)

theorem ins_nlFree {xs ys : List Line} (h : Ins xs ys) (hx : NlFree xs) :
    NlFree ys := by
  intro y hy
  rcases h.mem_or_blank y hy with h' | h'
  · exact hx y h'
  · subst h'
    simp

/-- The pair condition of the heading fixer's blank-line-before rule. -/
def hPairBefore (a b : Line) : Bool :=
  isHeading b && !(strip a).isEmpty && !(['#'].isPrefixOf (strip a))

/-- A pair of adjacent lines violates one of the heading fixer's rules. -/
def hViol (a b : Line) : Bool :=
  hPairBefore a b || hAfter a b

/-- No adjacent pair of the list (with `prev` in front) fires a heading
fixer insertion. -/
def hOkLoop : Line → List Line → Bool
  | _, [] => true
  | prev, l :: r => !(hViol prev l) && hOkLoop l r

/-- No line of the list triggers a fence fixer insertion, scanning with
fence state `inF` and previous line `prev`. -/
def fOkLoop : Bool → Line → List Line → Bool
  | _, _, [] => true
  | inF, prev, line :: rest =>
    if isFence line then
      if inF then
        (rest.isEmpty || (strip (rest.headD [])).isEmpty) && fOkLoop false line rest
      else
        (strip prev).isEmpty && fOkLoop true line rest
    else fOkLoop inF line rest

/-- No line of the list triggers a list fixer insertion, scanning with
list state `inL` and previous line `prev`. -/
def lOkLoop : Bool → Line → List Line → Bool
  | _, _, [] => true
  | inL, prev, line :: rest =>
    if isListLine line then
      if inL then lOkLoop true line rest
      else ((strip prev).isEmpty || isListLine prev) && lOkLoop true line rest
    else
      if inL then (strip line).isEmpty && lOkLoop false line rest
      else lOkLoop false line rest

theorem strip_nil : strip ([] : Line) = [] := rfl

theorem isHeading_nil : isHeading ([] : Line) = false := by decide

theorem isFence_nil : isFence ([] : Line) = false := by decide

theorem isListLine_nil : isListLine ([] : Line) = false := by decide

theorem hAfter_nil (a : Line) : hAfter a [] = false := by
  simp [hAfter, strip_nil]

theorem hViol_nil_right (a : Line) : hViol a [] = false := by
  simp [hViol, hPairBefore, hAfter_nil, isHeading_nil]

theorem hViol_nil_left (b : Line) : hViol [] b = false := by
  simp [hViol, hPairBefore, hAfter, strip_nil, isHeading_nil]

theorem hBefore_some (prev l line : Line) :
    hBefore prev (some l) line = (hPairBefore prev line && !l.isEmpty) := by
  simp [hBefore, hPairBefore, Bool.and_assoc]

theorem hBefore_none (prev line : Line) : hBefore prev none line = false := rfl

theorem strip_empty_of_nil {l : Line} (h : l = []) : (strip l).isEmpty = true := by
  subst h
  rfl

theorem bnot_true {b : Bool} (h : (!b) = true) : b = false := by
  cases b
  · rfl
  · simp at h

theorem bor_false {a b : Bool} (h : (a || b) = false) : a = false ∧ b = false := by
  cases a <;> cases b <;> simp_all

theorem band_false {a b : Bool} (h : (a && b) = false) : a = false ∨ b = false := by
  cases a <;> cases b <;> simp_all

/-- If no heading rule fires on the list, the heading fixer is the
identity. -/
theorem hId : ∀ (ls : List Line) (prev : Line) (lo : Option Line),
    (lo = none ∨ lo = some prev) → hOkLoop prev ls = true →
    fixHeadLoop prev lo ls = ls := by
  intro ls
  induction ls with
  | nil => intro prev lo _ _; rfl
  | cons line rest ih =>
    intro prev lo hlo hok
    rw [hOkLoop, Bool.and_eq_true] at hok
    obtain ⟨hv, hrest⟩ := hok
    have hv' : hViol prev line = false := bnot_true hv
    rw [hViol] at hv'
    obtain ⟨hvb, hva⟩ := bor_false hv'
    have hb : hBefore prev lo line = false := by
      rcases hlo with rfl | rfl
      · rfl
      · rw [hBefore_some, hvb, Bool.false_and]
    have hp : hAfter line (rest.headD []) = false := by
      cases rest with
      | nil => exact hAfter_nil line
      | cons n r =>
        rw [hOkLoop, Bool.and_eq_true] at hrest
        have h2 : hViol line n = false := bnot_true hrest.1
        rw [hViol] at h2
        simpa [List.headD_cons] using (bor_false h2).2
    rw [fixHeadLoop]
    simp only [hb, hp, Bool.false_eq_true, if_false, List.nil_append]
    exact congrArg (line :: ·) (ih line (some line) (Or.inr rfl) hrest)

/-- If no fence rule fires on the list, the fence fixer is the identity. -/
theorem fId : ∀ (ls : List Line) (inF : Bool) (prev : Line) (lo : Option Line),
    (lo = none ∨ lo = some prev) → fOkLoop inF prev ls = true →
    fixFenceLoop inF prev lo ls = ls := by
  intro ls
  induction ls with
  | nil => intro inF prev lo _ _; rfl
  | cons line rest ih =>
    intro inF prev lo hlo hok
    rw [fOkLoop] at hok
    rw [fixFenceLoop]
    cases hf : isFence line
    · rw [hf] at hok
      simp only [Bool.false_eq_true, if_false] at hok ⊢
      exact congrArg (line :: ·) (ih inF line (some line) (Or.inr rfl) hok)
    · rw [hf] at hok
      simp only [if_true] at hok ⊢
      cases inF
      · simp only [Bool.false_eq_true, if_false] at hok ⊢
        rw [Bool.and_eq_true] at hok
        obtain ⟨hc, hrest⟩ := hok
        have hb : fBefore prev lo = false := by
          rcases hlo with rfl | rfl
          · rfl
          · rw [fBefore]
            rw [hc]
            rfl
        simp only [hb, Bool.false_eq_true, if_false, List.nil_append]
        exact congrArg (line :: ·) (ih true line (some line) (Or.inr rfl) hrest)
      · simp only [if_true] at hok ⊢
        rw [Bool.and_eq_true] at hok
        obtain ⟨hc, hrest⟩ := hok
        have hpost : (!rest.isEmpty && !(strip (rest.headD [])).isEmpty) = false := by
          rcases (Bool.or_eq_true _ _).mp hc with h | h
          · rw [h]
            rfl
          · rw [h]
            simp
        simp only [hpost, Bool.false_eq_true, if_false, List.nil_append]
        exact congrArg (line :: ·) (ih false line (some line) (Or.inr rfl) hrest)

/-- If no list rule fires on the list, the list fixer is the identity. -/
theorem lId : ∀ (ls : List Line) (inL : Bool) (prev : Line) (lo : Option Line),
    (lo = none ∨ lo = some prev) → lOkLoop inL prev ls = true →
    fixListLoop inL prev lo ls = ls := by
  intro ls
  induction ls with
  | nil => intro inL prev lo _ _; rfl
  | cons line rest ih =>
    intro inL prev lo hlo hok
    rw [lOkLoop] at hok
    rw [fixListLoop]
    cases hl : isListLine line
    · rw [hl] at hok
      simp only [Bool.false_eq_true, if_false] at hok ⊢
      cases inL
      · simp only [Bool.false_eq_true, if_false] at hok ⊢
        exact congrArg (line :: ·) (ih false line (some line) (Or.inr rfl) hok)
      · simp only [if_true] at hok ⊢
        rw [Bool.and_eq_true] at hok
        obtain ⟨hc, hrest⟩ := hok
        have he : lExitIns line lo = false := by
          rcases hlo with rfl | rfl
          · rfl
          · rw [lExitIns, hc]
            rfl
        simp only [he, Bool.false_eq_true, if_false, List.nil_append]
        exact congrArg (line :: ·) (ih false line (some line) (Or.inr rfl) hrest)
    · rw [hl] at hok
      simp only [if_true] at hok ⊢
      cases inL
      · simp only [Bool.false_eq_true, if_false] at hok ⊢
        rw [Bool.and_eq_true] at hok
        obtain ⟨hc, hrest⟩ := hok
        have hb : lBefore prev lo = false := by
          rcases hlo with rfl | rfl
          · rfl
          · rw [lBefore]
            rcases (Bool.or_eq_true _ _).mp hc with h | h
            · rw [h]
              rfl
            · rw [h]
              simp
        simp only [hb, Bool.false_eq_true, if_false, List.nil_append]
        exact congrArg (line :: ·) (ih true line (some line) (Or.inr rfl) hrest)
      · simp only [if_true] at hok ⊢
        exact congrArg (line :: ·) (ih true line (some line) (Or.inr rfl) hok)

/-- The heading fixer's output contains no pair that would fire a heading
rule again.  The disjunctive hypothesis ("insurance") covers the pair
formed by the previous output line `q` and the first line of the output:
it holds trivially at the top level with `q = []`. -/
theorem hComp : ∀ (ls : List Line) (prev : Line) (lo : Option Line) (q : Line),
    (ls = [] ∨ hBefore prev lo (ls.headD []) = true ∨ hViol q (ls.headD []) = false) →
    hOkLoop q (fixHeadLoop prev lo ls) = true := by
  intro ls
  induction ls with
  | nil => intro prev lo q _; rfl
  | cons line rest ih =>
    intro prev lo q hins
    have hnext : ∀ hp : hAfter line (rest.headD []) = false,
        rest = [] ∨ hBefore line (some line) (rest.headD []) = true ∨
          hViol line (rest.headD []) = false := by
      intro hp
      cases rest with
      | nil => exact Or.inl rfl
      | cons n r =>
        by_cases hbn : hBefore line (some line) n = true
        · exact Or.inr (Or.inl (by rw [List.headD_cons]; exact hbn))
        · refine Or.inr (Or.inr ?_)
          rw [List.headD_cons]
          have ha : hAfter line n = false := by simpa [List.headD_cons] using hp
          have hpb : hPairBefore line n = false := by
            by_contra hc
            rw [Bool.not_eq_false] at hc
            refine hbn ?_
            rw [hBefore_some, hc, Bool.true_and]
            rw [hPairBefore, Bool.and_eq_true, Bool.and_eq_true] at hc
            obtain ⟨⟨-, h2⟩, -⟩ := hc
            have hline : line.isEmpty = false := by
              cases line with
              | nil => rw [strip_nil] at h2; simp at h2
              | cons _ _ => rfl
            rw [hline]
            rfl
          rw [hViol, ha, hpb]
          rfl
    have hblank : ∀ x : Line, rest = [] ∨ hBefore x (some []) (rest.headD []) = true ∨
        hViol ([] : Line) (rest.headD []) = false := by
      intro x
      exact Or.inr (Or.inr (hViol_nil_left _))
    rw [fixHeadLoop]
    cases hb : hBefore prev lo line
    · have hq : hViol q line = false := by
        rcases hins with h | h | h
        · exact absurd h (by simp)
        · rw [List.headD_cons] at h
          rw [h] at hb
          exact absurd hb (by simp)
        · simpa using h
      cases hp : hAfter line (rest.headD [])
      · simp only [hb, hp, Bool.false_eq_true, if_false, List.nil_append,
          List.singleton_append, List.cons_append]
        rw [hOkLoop, Bool.and_eq_true]
        refine ⟨by rw [hq]; rfl, ?_⟩
        exact ih line (some line) line (hnext hp)
      · simp only [hb, hp, Bool.false_eq_true, if_false, if_true, List.nil_append,
          List.singleton_append, List.cons_append]
        rw [hOkLoop, Bool.and_eq_true]
        refine ⟨by rw [hq]; rfl, ?_⟩
        rw [hOkLoop, Bool.and_eq_true]
        refine ⟨by rw [hViol_nil_right]; rfl, ?_⟩
        exact ih line (some []) [] (hblank line)
    · cases hp : hAfter line (rest.headD [])
      · simp only [hb, hp, Bool.false_eq_true, if_false, if_true, List.nil_append,
          List.singleton_append, List.cons_append]
        rw [hOkLoop, Bool.and_eq_true]
        refine ⟨by rw [hViol_nil_right]; rfl, ?_⟩
        rw [hOkLoop, Bool.and_eq_true]
        refine ⟨by rw [hViol_nil_left]; rfl, ?_⟩
        exact ih line (some line) line (hnext hp)
      · simp only [hb, hp, if_true, List.nil_append, List.singleton_append,
          List.cons_append]
        rw [hOkLoop, Bool.and_eq_true]
        refine ⟨by rw [hViol_nil_right]; rfl, ?_⟩
        rw [hOkLoop, Bool.and_eq_true]
        refine ⟨by rw [hViol_nil_left]; rfl, ?_⟩
        rw [hOkLoop, Bool.and_eq_true]
        refine ⟨by rw [hViol_nil_right]; rfl, ?_⟩
        exact ih line (some []) [] (hblank line)

theorem bnot_false {b : Bool} (h : (!b) = false) : b = true := by
  cases b
  · simp at h
  · rfl

theorem isEmpty_strip_of_isEmpty {l : Line} (h : l.isEmpty = true) :
    (strip l).isEmpty = true := by
  cases l with
  | nil => rfl
  | cons _ _ => simp at h

/-- The head of the fence fixer's output on a non-empty input is the first
input line or an inserted blank. -/
theorem fFenceHead (inF : Bool) (prev : Line) (lo : Option Line) (n : Line)
    (r' : List Line) :
    (fixFenceLoop inF prev lo (n :: r')).headD [] = n ∨
      (fixFenceLoop inF prev lo (n :: r')).headD [] = [] := by
  rw [fixFenceLoop]
  cases hf : isFence n
  · simp [hf]
  · cases inF
    · cases hb : fBefore prev lo <;> simp [hf, hb]
    · simp [hf]

theorem fcond_of_fBefore_false {prev : Line} {lo : Option Line} {q : Line}
    (hlo : lo = some q ∨ (lo = none ∧ q = []))
    (hq : q = prev ∨ q = [])
    (hb : fBefore prev lo = false) : (strip q).isEmpty = true := by
  rcases hq with rfl | rfl
  · rcases hlo with rfl | ⟨-, rfl⟩
    · rw [fBefore] at hb
      rcases band_false hb with h | h
      · exact bnot_false h
      · exact isEmpty_strip_of_isEmpty (bnot_false h)
    · rfl
  · rfl

/-- The fence fixer's output contains no line that would fire a fence rule
again. -/
theorem fComp : ∀ (ls : List Line) (inF : Bool) (prev : Line) (lo : Option Line)
    (q : Line), (lo = some q ∨ (lo = none ∧ q = [])) → (q = prev ∨ q = []) →
    fOkLoop inF q (fixFenceLoop inF prev lo ls) = true := by
  intro ls
  induction ls with
  | nil => intro inF prev lo q _ _; rfl
  | cons line rest ih =>
    intro inF prev lo q hlo hq
    rw [fixFenceLoop]
    cases hf : isFence line
    · simp only [hf, Bool.false_eq_true, if_false, List.nil_append,
        List.singleton_append, List.cons_append]
      rw [fOkLoop]
      simp only [hf, Bool.false_eq_true, if_false]
      exact ih inF line (some line) line (Or.inl rfl) (Or.inl rfl)
    · cases inF
      · simp only [hf, if_true, Bool.false_eq_true, if_false]
        cases hb : fBefore prev lo
        · simp only [hb, Bool.false_eq_true, if_false, List.nil_append,
            List.singleton_append, List.cons_append]
          rw [fOkLoop]
          simp only [hf, if_true, Bool.false_eq_true, if_false]
          rw [Bool.and_eq_true]
          exact ⟨fcond_of_fBefore_false hlo hq hb,
            ih true line (some line) line (Or.inl rfl) (Or.inl rfl)⟩
        · simp only [hb, if_true, List.singleton_append, List.cons_append,
            List.nil_append]
          rw [fOkLoop]
          simp only [isFence_nil, Bool.false_eq_true, if_false]
          rw [fOkLoop]
          simp only [hf, if_true, Bool.false_eq_true, if_false]
          rw [Bool.and_eq_true]
          refine ⟨by rw [strip_nil]; rfl, ?_⟩
          exact ih true line (some line) line (Or.inl rfl) (Or.inl rfl)
      · simp only [hf, if_true]
        cases hp : (!rest.isEmpty && !(strip (rest.headD [])).isEmpty)
        · simp only [hp, Bool.false_eq_true, if_false, List.nil_append,
            List.singleton_append, List.cons_append]
          rw [fOkLoop]
          simp only [hf, if_true]
          rw [Bool.and_eq_true]
          constructor
          · rcases band_false hp with h | h
            · have hrest : rest = [] := by
                cases rest with
                | nil => rfl
                | cons _ _ => simp at h
              subst hrest
              rw [show fixFenceLoop false line (some line) [] = [] from rfl]
              rfl
            · have hse : (strip (rest.headD [])).isEmpty = true := bnot_false h
              cases rest with
              | nil =>
                rw [show fixFenceLoop false line (some line) [] = [] from rfl]
                rfl
              | cons n r' =>
                rw [List.headD_cons] at hse
                rcases fFenceHead false line (some line) n r' with hh | hh <;> rw [hh]
                · rw [hse]
                  simp
                · rw [strip_nil]
                  simp
          · exact ih false line (some line) line (Or.inl rfl) (Or.inl rfl)
        · simp only [hp, if_true, List.singleton_append, List.cons_append,
            List.nil_append]
          rw [fOkLoop]
          simp only [hf, if_true]
          rw [Bool.and_eq_true]
          constructor
          · simp [strip_nil]
          · rw [fOkLoop]
            simp only [isFence_nil, Bool.false_eq_true, if_false]
            exact ih false line (some []) [] (Or.inl rfl) (Or.inr rfl)

theorem lcond_of_lBefore_false {prev : Line} {lo : Option Line}
    (hlo : lo = some prev ∨ (lo = none ∧ prev = []))
    (hb : lBefore prev lo = false) :
    ((strip prev).isEmpty || isListLine prev) = true := by
  rcases hlo with rfl | ⟨-, rfl⟩
  · rw [lBefore] at hb
    rcases band_false hb with h | h
    · rcases band_false h with h' | h'
      · simp [bnot_false h']
      · simp [bnot_false h']
    · simp [isEmpty_strip_of_isEmpty (bnot_false h)]
  · simp [strip_nil]

theorem lexit_strip {line prev : Line} {lo : Option Line}
    (hlo : lo = some prev ∨ (lo = none ∧ prev = []))
    (hinv : isListLine prev = true)
    (he : lExitIns line lo = false) : (strip line).isEmpty = true := by
  rcases hlo with rfl | ⟨-, rfl⟩
  · rw [lExitIns] at he
    rcases band_false he with h | h
    · exact bnot_false h
    · have h1 : prev.isEmpty = true := bnot_false h
      have h2 : prev = [] := by
        cases prev with
        | nil => rfl
        | cons _ _ => simp at h1
      rw [h2, isListLine_nil] at hinv
      simp at hinv
  · rw [isListLine_nil] at hinv
    simp at hinv

/-- The list fixer's output contains no line that would fire a list rule
again. -/
theorem lComp : ∀ (ls : List Line) (inL : Bool) (prev : Line) (lo : Option Line),
    (lo = some prev ∨ (lo = none ∧ prev = [])) →
    (inL = true → isListLine prev = true) →
    lOkLoop inL prev (fixListLoop inL prev lo ls) = true := by
  intro ls
  induction ls with
  | nil => intro inL prev lo _ _; rfl
  | cons line rest ih =>
    intro inL prev lo hlo hinv
    rw [fixListLoop]
    cases hl : isListLine line
    · cases inL
      · simp only [hl, Bool.false_eq_true, if_false, List.nil_append,
          List.singleton_append, List.cons_append]
        rw [lOkLoop]
        simp only [hl, Bool.false_eq_true, if_false]
        exact ih false line (some line) (Or.inl rfl) (by intro h; simp at h)
      · cases he : lExitIns line lo
        · simp only [hl, he, Bool.false_eq_true, if_false, if_true, List.nil_append,
            List.singleton_append, List.cons_append]
          rw [lOkLoop]
          simp only [hl, Bool.false_eq_true, if_false, if_true]
          rw [Bool.and_eq_true]
          exact ⟨lexit_strip hlo (hinv rfl) he,
            ih false line (some line) (Or.inl rfl) (by intro h; simp at h)⟩
        · simp only [hl, he, if_true, Bool.false_eq_true, if_false,
            List.singleton_append, List.cons_append, List.nil_append]
          rw [lOkLoop]
          simp only [isListLine_nil, Bool.false_eq_true, if_false, if_true]
          rw [Bool.and_eq_true]
          refine ⟨by rw [strip_nil]; rfl, ?_⟩
          rw [lOkLoop]
          simp only [hl, Bool.false_eq_true, if_false]
          exact ih false line (some line) (Or.inl rfl) (by intro h; simp at h)
    · cases inL
      · cases hb : lBefore prev lo
        · simp only [hl, hb, if_true, Bool.false_eq_true, if_false, List.nil_append,
            List.singleton_append, List.cons_append]
          rw [lOkLoop]
          simp only [hl, if_true, Bool.false_eq_true, if_false]
          rw [Bool.and_eq_true]
          exact ⟨lcond_of_lBefore_false hlo hb,
            ih true line (some line) (Or.inl rfl) fun _ => hl⟩
        · simp only [hl, hb, if_true, List.singleton_append, List.cons_append,
            Bool.false_eq_true, if_false, List.nil_append]
          rw [lOkLoop]
          simp only [isListLine_nil, Bool.false_eq_true, if_false]
          rw [lOkLoop]
          simp only [hl, if_true, Bool.false_eq_true, if_false]
          rw [Bool.and_eq_true]
          refine ⟨by rw [strip_nil]; rfl, ?_⟩
          exact ih true line (some line) (Or.inl rfl) fun _ => hl
      · simp only [hl, if_true, List.nil_append, List.singleton_append,
          List.cons_append]
        rw [lOkLoop]
        simp only [hl, if_true]
        exact ih true line (some line) (Or.inl rfl) fun _ => hl

theorem insHead {as bs : List Line} (h : Ins as bs) :
    bs.headD [] = as.headD [] ∨ bs.headD [] = [] := by
  cases h with
  | nil => exact Or.inl rfl
  | cons x h => exact Or.inl (by simp)
  | blank h => exact Or.inr (by simp)

/-- Inserting blank lines preserves heading-rule freedom. -/
theorem hPres {xs ys : List Line} (h : Ins xs ys) : ∀ (p q : Line),
    (q = p ∨ q = []) → hOkLoop p xs = true → hOkLoop q ys = true := by
  induction h with
  | nil => intro p q _ _; rfl
  | cons x h ih =>
    intro p q hq hok
    rw [hOkLoop, Bool.and_eq_true] at hok
    rw [hOkLoop, Bool.and_eq_true]
    constructor
    · rcases hq with rfl | rfl
      · exact hok.1
      · rw [hViol_nil_left]
        rfl
    · exact ih x x (Or.inl rfl) hok.2
  | blank h ih =>
    intro p q hq hok
    rw [hOkLoop, Bool.and_eq_true]
    constructor
    · rw [hViol_nil_right]
      rfl
    · exact ih p [] (Or.inr rfl) hok

/-- Inserting blank lines preserves fence-rule freedom. -/
theorem fPres {xs ys : List Line} (h : Ins xs ys) : ∀ (inF : Bool) (p q : Line),
    (q = p ∨ q = []) → fOkLoop inF p xs = true → fOkLoop inF q ys = true := by
  induction h with
  | nil => intro inF p q _ _; rfl
  | blank h ih =>
    intro inF p q hq hok
    rw [fOkLoop]
    simp only [isFence_nil, Bool.false_eq_true, if_false]
    exact ih inF p [] (Or.inr rfl) hok
  | cons x h ih =>
    rename_i xs' ys'
    intro inF p q hq hok
    rw [fOkLoop] at hok ⊢
    cases hf : isFence x
    · rw [hf] at hok
      simp only [Bool.false_eq_true, if_false] at hok ⊢
      exact ih inF x x (Or.inl rfl) hok
    · rw [hf] at hok
      simp only [if_true] at hok ⊢
      cases inF
      · simp only [Bool.false_eq_true, if_false] at hok ⊢
        rw [Bool.and_eq_true] at hok ⊢
        constructor
        · rcases hq with rfl | rfl
          · exact hok.1
          · rw [strip_nil]
            rfl
        · exact ih true x x (Or.inl rfl) hok.2
      · simp only [if_true] at hok ⊢
        rw [Bool.and_eq_true] at hok ⊢
        constructor
        · rcases (Bool.or_eq_true _ _).mp hok.1 with hc | hc
          · have hxs : xs' = [] := by
              cases xs' with
              | nil => rfl
              | cons _ _ => simp at hc
            subst hxs
            rcases insHead h with hh | hh
            · rw [List.headD_nil] at hh
              rw [hh, strip_nil]
              simp
            · rw [hh, strip_nil]
              simp
          · rcases insHead h with hh | hh
            · rw [hh, hc, Bool.or_true]
            · rw [hh, strip_nil]
              simp
        · exact ih false x x (Or.inl rfl) hok.2

/-- Every line of the list is the empty line. -/
def AllEmpty (bs : List Line) : Prop := ∀ b ∈ bs, b = []

theorem hOk_blanks : ∀ (bs : List Line) (p : Line), AllEmpty bs →
    hOkLoop p bs = true := by
  intro bs
  induction bs with
  | nil => intro p _; rfl
  | cons b r ih =>
    intro p hb
    have hb0 : b = [] := hb b (List.mem_cons_self b r)
    subst hb0
    rw [hOkLoop, Bool.and_eq_true]
    exact ⟨by rw [hViol_nil_right]; rfl,
      ih [] fun x hx => hb x (List.mem_cons_of_mem _ hx)⟩

theorem fOk_blanks : ∀ (bs : List Line) (inF : Bool) (p : Line), AllEmpty bs →
    fOkLoop inF p bs = true := by
  intro bs
  induction bs with
  | nil => intro inF p _; rfl
  | cons b r ih =>
    intro inF p hb
    have hb0 : b = [] := hb b (List.mem_cons_self b r)
    subst hb0
    rw [fOkLoop]
    simp only [isFence_nil, Bool.false_eq_true, if_false]
    exact ih inF [] fun x hx => hb x (List.mem_cons_of_mem _ hx)

theorem lOk_blanks : ∀ (bs : List Line) (inL : Bool) (p : Line), AllEmpty bs →
    lOkLoop inL p bs = true := by
  intro bs
  induction bs with
  | nil => intro inL p _; rfl
  | cons b r ih =>
    intro inL p hb
    have hb0 : b = [] := hb b (List.mem_cons_self b r)
    subst hb0
    rw [lOkLoop]
    simp only [isListLine_nil, Bool.false_eq_true, if_false]
    cases inL
    · simp only [Bool.false_eq_true, if_false]
      exact ih false [] fun x hx => hb x (List.mem_cons_of_mem _ hx)
    · simp only [if_true]
      rw [Bool.and_eq_true]
      exact ⟨by rw [strip_nil]; rfl,
        ih false [] fun x hx => hb x (List.mem_cons_of_mem _ hx)⟩

/-- Replacing one all-blank tail by another preserves heading-rule freedom. -/
theorem hOk_tail_swap : ∀ (ks bs bs' : List Line) (p : Line), AllEmpty bs →
    AllEmpty bs' → hOkLoop p (ks ++ bs) = true → hOkLoop p (ks ++ bs') = true := by
  intro ks
  induction ks with
  | nil => intro bs bs' p _ hb' _; exact hOk_blanks bs' p hb'
  | cons k r ih =>
    intro bs bs' p hb hb' hok
    rw [List.cons_append] at hok ⊢
    rw [hOkLoop, Bool.and_eq_true] at hok ⊢
    exact ⟨hok.1, ih bs bs' k hb hb' hok.2⟩

/-- Replacing one all-blank tail by another preserves fence-rule freedom. -/
theorem fOk_tail_swap : ∀ (ks bs bs' : List Line) (inF : Bool) (p : Line),
    AllEmpty bs → AllEmpty bs' → fOkLoop inF p (ks ++ bs) = true →
    fOkLoop inF p (ks ++ bs') = true := by
  intro ks
  induction ks with
  | nil => intro bs bs' inF p _ hb' _; exact fOk_blanks bs' inF p hb'
  | cons k r ih =>
    intro bs bs' inF p hb hb' hok
    rw [List.cons_append] at hok ⊢
    rw [fOkLoop] at hok ⊢
    cases hf : isFence k
    · rw [hf] at hok
      simp only [Bool.false_eq_true, if_false] at hok ⊢
      exact ih bs bs' inF k hb hb' hok
    · rw [hf] at hok
      simp only [if_true] at hok ⊢
      cases inF
      · simp only [Bool.false_eq_true, if_false] at hok ⊢
        rw [Bool.and_eq_true] at hok ⊢
        exact ⟨hok.1, ih bs bs' true k hb hb' hok.2⟩
      · simp only [if_true] at hok ⊢
        rw [Bool.and_eq_true] at hok ⊢
        constructor
        · cases r with
          | nil =>
            cases hbs' : bs' with
            | nil => rfl
            | cons b0 r0 =>
              have hb0 : b0 = [] := hb' b0 (hbs' ▸ List.mem_cons_self b0 r0)
              subst hb0
              simp [strip_nil]
          | cons n r' =>
            rcases (Bool.or_eq_true _ _).mp hok.1 with hc | hc
            · simp at hc
            · simp only [List.cons_append, List.headD_cons] at hc ⊢
              simp [hc]
        · exact ih bs bs' false k hb hb' hok.2

/-- Replacing one all-blank tail by another preserves list-rule freedom. -/
theorem lOk_tail_swap : ∀ (ks bs bs' : List Line) (inL : Bool) (p : Line),
    AllEmpty bs → AllEmpty bs' → lOkLoop inL p (ks ++ bs) = true →
    lOkLoop inL p (ks ++ bs') = true := by
  intro ks
  induction ks with
  | nil => intro bs bs' inL p _ hb' _; exact lOk_blanks bs' inL p hb'
  | cons k r ih =>
    intro bs bs' inL p hb hb' hok
    rw [List.cons_append] at hok ⊢
    rw [lOkLoop] at hok ⊢
    cases hl : isListLine k
    · rw [hl] at hok
      simp only [Bool.false_eq_true, if_false] at hok ⊢
      cases inL
      · simp only [Bool.false_eq_true, if_false] at hok ⊢
        exact ih bs bs' false k hb hb' hok
      · simp only [if_true] at hok ⊢
        rw [Bool.and_eq_true] at hok ⊢
        exact ⟨hok.1, ih bs bs' false k hb hb' hok.2⟩
    · rw [hl] at hok
      simp only [if_true] at hok ⊢
      cases inL
      · simp only [Bool.false_eq_true, if_false] at hok ⊢
        rw [Bool.and_eq_true] at hok ⊢
        exact ⟨hok.1, ih bs bs' true k hb hb' hok.2⟩
      · simp only [if_true] at hok ⊢
        exact ih bs bs' true k hb hb' hok

/-! ## Idempotence of the fix-markdown pipeline -/

/-- Every line of the list carries no trailing whitespace. -/
def Trimmed (ls : List Line) : Prop := ∀ l ∈ ls, rstrip l = l

theorem dropWhile_idem {α : Type} (p : α → Bool) (l : List α) :
    (l.dropWhile p).dropWhile p = l.dropWhile p := by
  induction l with
  | nil => rfl
  | cons a t ih =>
    rw [List.dropWhile_cons]
    cases hp : p a
    · simp only [Bool.false_eq_true, if_false]
      rw [List.dropWhile_cons, hp]
      simp
    · simp only [if_true]
      exact ih

theorem rstrip_rstrip (l : Line) : rstrip (rstrip l) = rstrip l := by
  rw [rstrip, rstrip, List.reverse_reverse, dropWhile_idem]

theorem trimmed_map_rstrip (ls : List Line) : Trimmed (ls.map rstrip) := by
  intro l hl
  rcases List.mem_map.mp hl with ⟨a, _, rfl⟩
  exact rstrip_rstrip a

theorem trimmed_ins {xs ys : List Line} (h : Ins xs ys) (ht : Trimmed xs) :
    Trimmed ys := by
  intro l hl
  rcases h.mem_or_blank l hl with hm | hm
  · exact ht l hm
  · rw [hm]
    rfl

theorem mem_dropTrailingEmpty {ls : List Line} {x : Line}
    (h : x ∈ dropTrailingEmpty ls) : x ∈ ls := by
  rw [dropTrailingEmpty, List.mem_reverse] at h
  exact List.mem_reverse.mp ((List.dropWhile_suffix List.isEmpty).sublist.subset h)

theorem mem_fixEofLines {ls : List Line} {x : Line} (h : x ∈ fixEofLines ls) :
    x ∈ ls ∨ x = [] := by
  rw [fixEofLines] at h
  by_cases hd : (dropTrailingEmpty ls).isEmpty = true
  · rw [if_pos hd] at h
    right
    simpa using h
  · rw [if_neg hd] at h
    rcases List.mem_append.mp h with hm | hm
    · exact Or.inl (mem_dropTrailingEmpty hm)
    · right
      simpa using hm

theorem trimmed_fixEofLines {ls : List Line} (ht : Trimmed ls) :
    Trimmed (fixEofLines ls) := by
  intro l hl
  rcases mem_fixEofLines hl with hm | hm
  · exact ht l hm
  · rw [hm]
    rfl

theorem nlFree_fixEofLines {ls : List Line} (h : NlFree ls) :
    NlFree (fixEofLines ls) := by
  intro l hl
  rcases mem_fixEofLines hl with hm | hm
  · exact h l hm
  · rw [hm]
    simp

theorem fixEofLines_ne_nil (ls : List Line) : fixEofLines ls ≠ [] := by
  rw [fixEofLines]
  by_cases hd : (dropTrailingEmpty ls).isEmpty = true
  · rw [if_pos hd]
    simp
  · rw [if_neg hd]
    simp

theorem trimmed_map_eq {ls : List Line} (ht : Trimmed ls) :
    ls.map rstrip = ls := by
  induction ls with
  | nil => rfl
  | cons a t ih =>
    rw [List.map_cons, ht a (List.mem_cons_self a t),
      ih fun x hx => ht x (List.mem_cons_of_mem _ hx)]

theorem dropTrailingEmpty_spec (ls : List Line) :
    ∃ k, ls = dropTrailingEmpty ls ++ List.replicate k [] := by
  refine ⟨(ls.reverse.takeWhile List.isEmpty).length, ?_⟩
  have hmem : ∀ x ∈ (ls.reverse.takeWhile List.isEmpty).reverse, x = ([] : Line) := by
    intro x hx
    have hx' := List.mem_reverse.mp hx
    have := List.mem_takeWhile_imp hx'
    simpa using this
  have hrep : (ls.reverse.takeWhile List.isEmpty).reverse
      = List.replicate (ls.reverse.takeWhile List.isEmpty).length ([] : Line) := by
    rw [← List.length_reverse]
    exact List.eq_replicate_of_mem hmem
  have key : ls = (ls.reverse.dropWhile List.isEmpty).reverse
      ++ (ls.reverse.takeWhile List.isEmpty).reverse := by
    conv_lhs => rw [← ls.reverse_reverse,
      ← List.takeWhile_append_dropWhile List.isEmpty ls.reverse, List.reverse_append]
  rw [dropTrailingEmpty, ← hrep]
  exact key

theorem fixEofLines_decomp (ls : List Line) :
    ∃ bs, AllEmpty bs ∧ fixEofLines ls = dropTrailingEmpty ls ++ bs := by
  rw [fixEofLines]
  by_cases hd : (dropTrailingEmpty ls).isEmpty = true
  · refine ⟨[[], []], ?_, ?_⟩
    · intro b hb
      simpa using (by simpa using hb : b = [] ∨ b = []).elim id id
    · rw [if_pos hd, List.isEmpty_iff.mp hd, List.nil_append]
  · refine ⟨[[]], ?_, ?_⟩
    · intro b hb
      simpa using hb
    · rw [if_neg hd]

theorem joinNl_append_singleton : ∀ (as : List Line) (x : Line), as ≠ [] →
    joinNl (as ++ [x]) = joinNl as ++ '\n' :: x := by
  intro as
  induction as with
  | nil => intro x h; exact absurd rfl h
  | cons a t ih =>
    intro x _
    cases t with
    | nil => rfl
    | cons b r =>
      have h1 : (a :: b :: r) ++ [x] = a :: b :: (r ++ [x]) := by simp
      rw [h1, joinNl]
      have h2 : b :: (r ++ [x]) = (b :: r) ++ [x] := by simp
      rw [h2, ih x (by simp), joinNl]
      simp

theorem joinNl_append_replicate : ∀ (k : Nat) (m : List Line), m ≠ [] →
    joinNl (m ++ List.replicate k []) = joinNl m ++ List.replicate k '\n' := by
  intro k
  induction k with
  | zero => intro m _; simp
  | succ k' ih =>
    intro m hm
    have hne : m ++ List.replicate k' ([] : Line) ≠ [] := by
      cases m with
      | nil => exact absurd rfl hm
      | cons a t => simp
    rw [List.replicate_succ', ← List.append_assoc,
      joinNl_append_singleton _ _ hne, ih m hm, List.replicate_succ']
    simp

theorem joinNl_replicate : ∀ (k : Nat),
    joinNl (List.replicate (k + 1) ([] : Line)) = List.replicate k '\n' := by
  intro k
  induction k with
  | zero => rfl
  | succ k' ih =>
    rw [List.replicate_succ, List.replicate_succ, joinNl, ← List.replicate_succ, ih]
    rw [List.replicate_succ]
    simp

theorem dropWhile_head_false {α : Type} (p : α → Bool) :
    ∀ (l : List α) (a : α) (t : List α), l.dropWhile p = a :: t → p a = false := by
  intro l
  induction l with
  | nil => intro a t h; exact absurd h (by simp)
  | cons b r ih =>
    intro a t h
    rw [List.dropWhile_cons] at h
    cases hp : p b
    · rw [hp] at h
      simp only [Bool.false_eq_true, if_false] at h
      injection h with h1 h2
      exact h1 ▸ hp
    · rw [hp] at h
      simp only [if_true] at h
      exact ih a t h

theorem dropWhile_cons_self {α : Type} {p : α → Bool} {c : α} {t : List α}
    (h : List.dropWhile p (c :: t) = c :: t) : p c = false := by
  cases hp : p c
  · rfl
  · rw [List.dropWhile_cons, hp] at h
    simp only [if_true] at h
    have hlen := congrArg List.length h
    have hle : (List.dropWhile p t).length ≤ t.length := List.Sublist.length_le (List.dropWhile_sublist _)
    simp at hlen
    omega

theorem dropTrailingNl_append_replicate (j : List Char) (k : Nat)
    (hj : dropTrailingNl j = j) :
    dropTrailingNl (j ++ List.replicate k '\n') = j := by
  have hhead : ∀ c, j.reverse.head? = some c → (decide (c = '\n')) = false := by
    intro c hc
    cases hjr : j.reverse with
    | nil =>
      rw [hjr] at hc
      simp at hc
    | cons c0 t =>
      rw [hjr] at hc
      simp only [List.head?_cons, Option.some.injEq] at hc
      have h2 := congrArg List.reverse hj
      rw [dropTrailingNl, List.reverse_reverse, hjr] at h2
      have h5 := dropWhile_cons_self h2
      rw [← hc]
      exact h5
  have hall : ∀ c ∈ List.replicate k '\n', (decide (c = '\n')) = true := by
    intro c hc
    rw [List.eq_of_mem_replicate hc]
    decide
  rw [dropTrailingNl, List.reverse_append, List.reverse_replicate,
    dropWhile_append_of hall hhead, List.reverse_reverse]

theorem dropTrailingNl_append_nl (j : List Char) :
    dropTrailingNl (j ++ ['\n']) = dropTrailingNl j := by
  rw [dropTrailingNl, dropTrailingNl, List.reverse_append]
  simp [List.dropWhile_cons]

theorem dropTrailingNl_idem (c : List Char) :
    dropTrailingNl (dropTrailingNl c) = dropTrailingNl c := by
  rw [dropTrailingNl, dropTrailingNl, List.reverse_reverse, dropWhile_idem]

theorem fix_eof_newline_idem (c : List Char) :
    fix_eof_newline (fix_eof_newline c) = fix_eof_newline c := by
  simp only [fix_eof_newline]
  rw [dropTrailingNl_append_nl, dropTrailingNl_idem]

theorem dropTrailingNl_joinNl {as : List Line} {x : Line} (hx : x ≠ [])
    (hnl : '\n' ∉ x) : dropTrailingNl (joinNl (as ++ [x])) = joinNl (as ++ [x]) := by
  obtain ⟨c, t, hct⟩ : ∃ c t, x.reverse = c :: t := by
    cases hxr : x.reverse with
    | nil => exact absurd (by simpa using congrArg List.reverse hxr) hx
    | cons c t => exact ⟨c, t, rfl⟩
  have hc : c ∈ x := by
    rw [← List.mem_reverse, hct]
    exact List.mem_cons_self c t
  have hcn : (decide (c = '\n')) = false := by
    rw [decide_eq_false_iff_not]
    intro hcc
    exact hnl (hcc ▸ hc)
  cases as with
  | nil =>
    simp only [List.nil_append]
    rw [joinNl, dropTrailingNl, hct, List.dropWhile_cons, hcn]
    simp only [Bool.false_eq_true, if_false]
    rw [← hct, List.reverse_reverse]
  | cons a t' =>
    rw [joinNl_append_singleton (a :: t') x (by simp)]
    have hrev : (joinNl (a :: t') ++ '\n' :: x).reverse
        = c :: (t ++ '\n' :: (joinNl (a :: t')).reverse) := by
      rw [List.reverse_append, List.reverse_cons, hct]
      simp
    rw [dropTrailingNl, hrev, List.dropWhile_cons, hcn]
    simp only [Bool.false_eq_true, if_false]
    rw [← hrev, List.reverse_reverse]

theorem dropTrailingEmpty_last_ne {ls as : List Line} {x : Line}
    (h : dropTrailingEmpty ls = as ++ [x]) : x ≠ [] := by
  have h2 : ls.reverse.dropWhile List.isEmpty = x :: as.reverse := by
    have h3 := congrArg List.reverse h
    rw [dropTrailingEmpty, List.reverse_reverse, List.reverse_append] at h3
    simpa using h3
  have h4 := dropWhile_head_false List.isEmpty _ _ _ h2
  intro hx
  rw [hx] at h4
  simp at h4

/-- On a non-empty newline-free line list, the EOF fixer acts as
`fixEofLines` on the line view. -/
theorem eof_join {ls : List Line} (hne : ls ≠ []) (hnf : NlFree ls) :
    fix_eof_newline (joinNl ls) = joinNl (fixEofLines ls) := by
  obtain ⟨k, hk⟩ := dropTrailingEmpty_spec ls
  rcases List.eq_nil_or_concat (dropTrailingEmpty ls) with hm | ⟨as, x, hm⟩
  · rw [hm, List.nil_append] at hk
    
    have hfix : fixEofLines ls = [[], []] := by
      rw [fixEofLines, hm]
      rfl
    rw [hfix]
    cases k with
    | zero => exact absurd (by simpa using hk) hne
    | succ k' =>
      rw [hk, joinNl_replicate, fix_eof_newline]
      have hdrop : dropTrailingNl (List.replicate k' '\n') = [] := by
        have h0 : List.dropWhile (· = '\n') (List.replicate k' '\n') = [] := by
          rw [List.dropWhile_eq_nil_iff]
          intro y hy
          rw [List.eq_of_mem_replicate hy]
          decide
        rw [dropTrailingNl, List.reverse_replicate, h0]
        rfl
      rw [hdrop]
      rfl
  · rw [List.concat_eq_append] at hm
    have hk' : ls = (as ++ [x]) ++ List.replicate k [] := by
      rw [← hm]
      exact hk
    have hxmem : x ∈ ls := mem_dropTrailingEmpty
      (by rw [hm]; exact List.mem_append_right as (List.mem_cons_self x []))
    have hxne : x ≠ [] := dropTrailingEmpty_last_ne hm
    have hxnl : '\n' ∉ x := hnf x hxmem
    have hL : joinNl ls = joinNl (as ++ [x]) ++ List.replicate k '\n' := by
      rw [hk']
      exact joinNl_append_replicate k (as ++ [x]) (by simp)
    have hR : fixEofLines ls = (as ++ [x]) ++ [[]] := by
      rw [fixEofLines, hm, if_neg (by simp)]
    rw [hL, hR, joinNl_append_singleton (as ++ [x]) [] (by simp),
      fix_eof_newline, dropTrailingNl_append_replicate _ _
        (dropTrailingNl_joinNl hxne hxnl)]

/-- The line-level view of the first four stages of
`process_markdown_content` (trailing-space, heading, fence and list
fixers). -/
def stage3 (c : List Char) : List Line :=
  fixListsLines (fixFencesLines (fixHeadingsLines ((splitNl c).map rstrip)))

theorem stage3_ne_nil (c : List Char) : stage3 c ≠ [] :=
  ins_ne_nil (fixListLoop_ins _ false [] none)
    (ins_ne_nil (fixFenceLoop_ins _ false [] none)
      (ins_ne_nil (fixHeadLoop_ins _ [] none)
        (map_ne_nil (splitNl_ne_nil c))))

theorem stage3_nlFree (c : List Char) : NlFree (stage3 c) :=
  ins_nlFree (fixListLoop_ins _ false [] none)
    (ins_nlFree (fixFenceLoop_ins _ false [] none)
      (ins_nlFree (fixHeadLoop_ins _ [] none)
        (nlFree_map_rstrip (splitNl_nlFree c))))

theorem stage3_trimmed (c : List Char) : Trimmed (stage3 c) :=
  trimmed_ins (fixListLoop_ins _ false [] none)
    (trimmed_ins (fixFenceLoop_ins _ false [] none)
      (trimmed_ins (fixHeadLoop_ins _ [] none)
        (trimmed_map_rstrip _)))

theorem stage3_hOk (c : List Char) : hOkLoop [] (stage3 c) = true := by
  have h1 : hOkLoop [] (fixHeadingsLines ((splitNl c).map rstrip)) = true :=
    hComp _ [] none [] (Or.inr (Or.inr (hViol_nil_left _)))
  have h2 : hOkLoop []
      (fixFencesLines (fixHeadingsLines ((splitNl c).map rstrip))) = true :=
    hPres (fixFenceLoop_ins _ false [] none) [] [] (Or.inl rfl) h1
  exact hPres (fixListLoop_ins _ false [] none) [] [] (Or.inl rfl) h2

theorem stage3_fOk (c : List Char) : fOkLoop false [] (stage3 c) = true := by
  have h1 : fOkLoop false []
      (fixFencesLines (fixHeadingsLines ((splitNl c).map rstrip))) = true :=
    fComp _ false [] none [] (Or.inr ⟨rfl, rfl⟩) (Or.inl rfl)
  exact fPres (fixListLoop_ins _ false [] none) false [] [] (Or.inl rfl) h1

theorem stage3_lOk (c : List Char) : lOkLoop false [] (stage3 c) = true :=
  lComp _ false [] none (Or.inr ⟨rfl, rfl⟩) fun h => Bool.noConfusion h

/-- `process_markdown_content` in terms of the line-level pipeline. -/
theorem process_eq (c : List Char) :
    process_markdown_content c = fix_eof_newline (joinNl (stage3 c)) := by
  have hne0 : (splitNl c).map rstrip ≠ [] := map_ne_nil (splitNl_ne_nil c)
  have hnf0 : NlFree ((splitNl c).map rstrip) := nlFree_map_rstrip (splitNl_nlFree c)
  have hins01 : Ins ((splitNl c).map rstrip)
      (fixHeadingsLines ((splitNl c).map rstrip)) :=
    fixHeadLoop_ins _ [] none
  have hne1 : fixHeadingsLines ((splitNl c).map rstrip) ≠ [] :=
    ins_ne_nil hins01 hne0
  have hnf1 : NlFree (fixHeadingsLines ((splitNl c).map rstrip)) :=
    ins_nlFree hins01 hnf0
  have hins12 : Ins (fixHeadingsLines ((splitNl c).map rstrip))
      (fixFencesLines (fixHeadingsLines ((splitNl c).map rstrip))) :=
    fixFenceLoop_ins _ false [] none
  have hne2 : fixFencesLines (fixHeadingsLines ((splitNl c).map rstrip)) ≠ [] :=
    ins_ne_nil hins12 hne1
  have hnf2 : NlFree (fixFencesLines (fixHeadingsLines ((splitNl c).map rstrip))) :=
    ins_nlFree hins12 hnf1
  simp only [process_markdown_content, fix_trailing_spaces,
    fix_blank_lines_around_headings, fix_blank_lines_around_fences,
    fix_blank_lines_around_lists]
  rw [splitNl_joinNl hne0 hnf0, splitNl_joinNl hne1 hnf1, splitNl_joinNl hne2 hnf2,
    stage3]

theorem fixEofLines_hOk {ls : List Line} (h : hOkLoop [] ls = true) :
    hOkLoop [] (fixEofLines ls) = true := by
  obtain ⟨k, hk⟩ := dropTrailingEmpty_spec ls
  obtain ⟨bs, hbs, hfix⟩ := fixEofLines_decomp ls
  rw [hfix]
  refine hOk_tail_swap _ (List.replicate k []) bs []
    (fun b hb => List.eq_of_mem_replicate hb) hbs ?_
  rw [← hk]
  exact h

theorem fixEofLines_fOk {ls : List Line} (h : fOkLoop false [] ls = true) :
    fOkLoop false [] (fixEofLines ls) = true := by
  obtain ⟨k, hk⟩ := dropTrailingEmpty_spec ls
  obtain ⟨bs, hbs, hfix⟩ := fixEofLines_decomp ls
  rw [hfix]
  refine fOk_tail_swap _ (List.replicate k []) bs false []
    (fun b hb => List.eq_of_mem_replicate hb) hbs ?_
  rw [← hk]
  exact h

theorem fixEofLines_lOk {ls : List Line} (h : lOkLoop false [] ls = true) :
    lOkLoop false [] (fixEofLines ls) = true := by
  obtain ⟨k, hk⟩ := dropTrailingEmpty_spec ls
  obtain ⟨bs, hbs, hfix⟩ := fixEofLines_decomp ls
  rw [hfix]
  refine lOk_tail_swap _ (List.replicate k []) bs false []
    (fun b hb => List.eq_of_mem_replicate hb) hbs ?_
  rw [← hk]
  exact h

/-- A trimmed list on which no fixer rule fires is a fixed point of the
trailing-space, heading, fence and list stages. -/
theorem fixers_fixed {ls : List Line} (hT : Trimmed ls) (hH : hOkLoop [] ls = true)
    (hF : fOkLoop false [] ls = true) (hL : lOkLoop false [] ls = true) :
    fixListsLines (fixFencesLines (fixHeadingsLines (ls.map rstrip))) = ls := by
  rw [trimmed_map_eq hT, fixHeadingsLines, hId ls [] none (Or.inl rfl) hH,
    fixFencesLines, fId ls false [] none (Or.inl rfl) hF,
    fixListsLines, lId ls false [] none (Or.inl rfl) hL]

/-- C3: `process_markdown_file`'s content transform (trailing-space fix,
blank lines around headings, fences and lists, EOF-newline normalization)
is idempotent: running it a second time changes nothing. -/
theorem C3_pipeline_idempotent (c : List Char) :
    process_markdown_content (process_markdown_content c)
      = process_markdown_content c := by
  have h1 : process_markdown_content c = joinNl (fixEofLines (stage3 c)) := by
    rw [process_eq, eof_join (stage3_ne_nil c) (stage3_nlFree c)]
  have h2 : splitNl (process_markdown_content c) = fixEofLines (stage3 c) := by
    rw [h1]
    exact splitNl_joinNl (fixEofLines_ne_nil _) (nlFree_fixEofLines (stage3_nlFree c))
  have hfix : fixListsLines (fixFencesLines (fixHeadingsLines
      ((fixEofLines (stage3 c)).map rstrip))) = fixEofLines (stage3 c) :=
    fixers_fixed (trimmed_fixEofLines (stage3_trimmed c))
      (fixEofLines_hOk (stage3_hOk c)) (fixEofLines_fOk (stage3_fOk c))
      (fixEofLines_lOk (stage3_lOk c))
  rw [process_eq (process_markdown_content c), stage3, h2, hfix, ← h1,
    process_eq c]
  exact fix_eof_newline_idem _

end Scripts
